import Mathlib

/-!
Verification development for the guhit rendering library
(`src/index.js`).  The JavaScript source is shallowly embedded:

* JS `Map` objects (which iterate in insertion order) are modelled as
  association lists `List (Nat × β)`; `Map.get`, `Map.set`, `Map.has`
  become `mapGet`, `mapSet`, `mapHas`.
* The space/position allocator of `mountChildStream`
  (`getExternalPosition`, `move`, `insert`, `remove`) becomes the pure
  functions `getExternalPosition`, `moveStream`, `insertStream`,
  `removeStream`, each returning the updated spaces map together with
  the list of calls made to the enclosing region (`AllocOp`).
* The static diff (`diffVNode`, `diffVNodes`) and the reconciler
  (`mountVNodes`, `remountVNodes`, `updateVElement`,
  `createChildNode`, the root `mount`, and the unmount path of
  `mountChildStream`) are embedded as a fuel-indexed interpreter `run`
  over a defunctionalised call type, emitting a trace of display
  surface operations (`Op`).  Fuel only guards recursion depth; every
  recursive call passes `fuel - 1` and exhaustion yields an explicit
  error, so all definitions compute by `rfl`/`decide`.
-/

/-! ### Insertion-ordered maps (JS `Map`) -/

/-- JS `Map.get`: the value stored at a key, `none` when absent. -/
def mapGet {β : Type} : List (Nat × β) → Nat → Option β
  | [], _ => none
  | (k, v) :: r, key => if k = key then some v else mapGet r key

/-- JS `Map.has`. -/
def mapHas {β : Type} (m : List (Nat × β)) (key : Nat) : Bool :=
  m.any (fun e => e.1 = key)

/-- JS `Map.set`: update in place when the key exists (keeping its
iteration position), otherwise append at the end. -/
def mapSet {β : Type} (m : List (Nat × β)) (key : Nat) (v : β) : List (Nat × β) :=
  if mapHas m key then m.map (fun e => if e.1 = key then (key, v) else e)
  else m ++ [(key, v)]

/-! ### Spaces and positions (state of the dynamic region allocator)

A space maps integer positions to either a mounted child (`some c`) or
a tombstone (`none`, the source stores `null`); the spaces map holds
the ordered regions of one parent. -/

/-- One space: position → child or tombstone. -/
abbrev Positions (α : Type) := List (Nat × Option α)

/-- The spaces map of one region. -/
abbrev Spaces (α : Type) := List (Nat × Positions α)

/-- `get` of `mountChildStream`/`mount`: the occupant of
`(space, position)`, `none` for a missing space, missing key, or
tombstone (all falsy in the source). -/
def getOcc {α : Type} (spaces : Spaces α) (space position : Nat) : Option α :=
  match mapGet spaces space with
  | none => none
  | some ps =>
    match mapGet ps position with
    | some (some c) => some c
    | _ => none

/-- `getLargestPositionKey`: `Math.max` over the position keys
(tombstoned keys included); the source only calls it on non-empty
maps, where the `0` seed is absorbed by the (non-negative) keys. -/
def getLargestPositionKey {α : Type} (ps : Positions α) : Nat :=
  ps.foldl (fun m e => max m e.1) 0

/-- `getSmallestPositionKey`: `Math.min` over the position keys. -/
def getSmallestPositionKey {α : Type} (ps : Positions α) : Nat :=
  match ps with
  | [] => 0
  | (k, _) :: r => r.foldl (fun m e => min m e.1) k

/-- `getHeadSpaceKey`: the smallest space key strictly greater than
`space`, `none` if there is none. -/
def getHeadSpaceKey {α : Type} (spaces : Spaces α) (space : Nat) : Option Nat :=
  spaces.foldl
    (fun acc e =>
      if e.1 ≤ space then acc
      else
        match acc with
        | none => some e.1
        | some h => if h > e.1 then some e.1 else acc)
    none

/-- `getHeadPositionKey`: the smallest non-tombstoned position key
strictly greater than `position` (an `Int`, because the root `mount`
restarts the search with `-1`). -/
def getHeadPositionKey {α : Type} (ps : Positions α) (position : Int) : Option Nat :=
  ps.foldl
    (fun acc e =>
      match e.2 with
      | none => acc
      | some _ =>
        if (e.1 : Int) ≤ position then acc
        else
          match acc with
          | none => some e.1
          | some h => if h > e.1 then some e.1 else acc)
    none

/-- `getExternalPosition` of `mountChildStream`: the physical index in
the enclosing region for a request at `(space, position)`.  Start from
`position` plus a separator offset of `1` when `space ≠ 0`, then for
every space ordered strictly before `space` add its largest position
key (`0` when the space is empty) plus `1` when that space key is
non-zero. -/
def getExternalPosition {α : Type} (spaces : Spaces α) (space position : Nat) : Nat :=
  spaces.foldl
    (fun acc e =>
      if e.1 ≥ space then acc
      else
        acc + (if e.2.length = 0 then 0 else getLargestPositionKey e.2)
            + (if e.1 ≠ 0 then 1 else 0))
    (position + (if space ≠ 0 then 1 else 0))

/-- A call made by the allocator to the physical callbacks of its
enclosing region (`_move`, `_insert`, `_remove`). -/
inductive AllocOp (α : Type) where
  | extMove (pos len : Nat)
  | extInsert (child : α) (pos : Nat)
  | extRemove (pos : Nat)
deriving DecidableEq

/-- `move` of `mountChildStream` (identical in the root `mount`):
shift every position key at or after `position` right by `length`,
keeping keys before `position`; a no-op when the space is missing or
the slot is not occupied.  The rebuild through a placeholder map is
modelled by folding `mapSet` over the shifted entries. -/
def moveStream {α : Type} (spaces : Spaces α) (space position len : Nat) : Spaces α :=
  if !mapHas spaces space || (getOcc spaces space position).isNone then spaces
  else
    match mapGet spaces space with
    | none => spaces
    | some ps =>
      let ps2 := ps.foldl
        (fun acc e =>
          mapSet acc (if position > e.1 then e.1 else e.1 + len) e.2) []
      mapSet spaces space ps2

/-- `insert` of `mountChildStream`: create the space if needed; if the
slot is occupied, propagate `_move` at the slot's external index and
shift the space right by one; otherwise, when a later (head) space is
non-empty and the new position exceeds this space's largest key,
propagate `_move` at the head space's smallest slot by the difference.
Finally propagate `_insert` at the freshly computed external index and
store the child. -/
def insertStream {α : Type} (spaces : Spaces α) (child : α) (space position : Nat) :
    Spaces α × List (AllocOp α) :=
  let spaces0 := if mapHas spaces space then spaces else mapSet spaces space []
  let step :=
    if (getOcc spaces0 space position).isSome then
      (moveStream spaces0 space position 1,
       [AllocOp.extMove (getExternalPosition spaces0 space position) 1])
    else
      match getHeadSpaceKey spaces0 space with
      | none => (spaces0, [])
      | some headSpaceKey =>
        match mapGet spaces0 headSpaceKey with
        | none => (spaces0, [])
        | some headPs =>
          if headPs.length ≠ 0 then
            match mapGet spaces0 space with
            | none => (spaces0, [])
            | some ps =>
              if ps.length ≠ 0 then
                let largest := getLargestPositionKey ps
                if position > largest then
                  (spaces0,
                   [AllocOp.extMove
                     (getExternalPosition spaces0 headSpaceKey
                       (getSmallestPositionKey headPs))
                     (position - largest)])
                else (spaces0, [])
              else (spaces0, [])
          else (spaces0, [])
  let spaces1 := step.1
  let ops := step.2 ++ [AllocOp.extInsert child (getExternalPosition spaces1 space position)]
  let spaces2 :=
    match mapGet spaces1 space with
    | none => spaces1
    | some ps => mapSet spaces1 space (mapSet ps position (some child))
  (spaces2, ops)

/-- `remove` of `mountChildStream`: a no-op when the slot is not
occupied, otherwise propagate `_remove` at the external index computed
from the current spaces map and tombstone the slot (the key is kept). -/
def removeStream {α : Type} (spaces : Spaces α) (space position : Nat) :
    Spaces α × List (AllocOp α) :=
  match getOcc spaces space position with
  | none => (spaces, [])
  | some _ =>
    let ops := [AllocOp.extRemove (getExternalPosition spaces space position)]
    let spaces2 :=
      match mapGet spaces space with
      | none => spaces
      | some ps => mapSet spaces space (mapSet ps position none)
    (spaces2, ops)

/-! ### Node model

`VText`/`VElement`/child streams become the tagged variant `Item`.
Attribute and style values are constants or streams (`AVal`); event
values are handler-function identities (`Nat`).  An element's children
are stored already normalised, as the `VElement` constructor does. -/

/-- An attribute or style value: a constant string or a stream. -/
inductive AVal where
  | constV (s : String)
  | streamV (id : Nat)
deriving DecidableEq

/-- A normalised child item: a text node, an element node, or a stream
of node lists. -/
inductive Item where
  | vtext (text : String) (ref : Option Nat)
  | velem (name : String) (attrs style : List (String × AVal))
      (events : List (String × Nat)) (innerHTML : Option String)
      (children : List Item) (ref : Option Nat)
  | stream (id : Nat)

/-- A raw child item before `getSafeVNodes` normalisation: a node, a
stream, a string or number, `null`/`undefined`, or anything else (the
`junk` constructor carries the JS string image `${child}` used by
`t(child)`). -/
inductive RawItem where
  | item (v : Item)
  | rawStream (id : Nat)
  | str (s : String)
  | num (n : Int)
  | nullv
  | undef
  | junk (image : String)

/-- One step of `getSafeVNodes`: drop `null`/`undefined`, pass nodes
and streams through, and wrap anything else in a text node via
`t(child)`. -/
def rawToItem : RawItem → Option Item
  | RawItem.item v => some v
  | RawItem.rawStream id => some (Item.stream id)
  | RawItem.str s => some (Item.vtext s none)
  | RawItem.num n => some (Item.vtext (toString n) none)
  | RawItem.nullv => none
  | RawItem.undef => none
  | RawItem.junk image => some (Item.vtext image none)

/-- `getSafeVNodes`. -/
def getSafeVNodes (l : List RawItem) : List Item :=
  l.filterMap rawToItem

def Item.isStreamI : Item → Bool
  | Item.stream _ => true
  | _ => false

def Item.isElemI : Item → Bool
  | Item.velem _ _ _ _ _ _ _ => true
  | _ => false

def Item.isTextI : Item → Bool
  | Item.vtext _ _ => true
  | _ => false

def Item.nameOf : Item → String
  | Item.velem n _ _ _ _ _ _ => n
  | _ => ""

def Item.textOf : Item → String
  | Item.vtext t _ => t
  | _ => ""

def Item.attrsOf : Item → List (String × AVal)
  | Item.velem _ a _ _ _ _ _ => a
  | _ => []

def Item.styleOf : Item → List (String × AVal)
  | Item.velem _ _ s _ _ _ _ => s
  | _ => []

def Item.eventsOf : Item → List (String × Nat)
  | Item.velem _ _ _ e _ _ _ => e
  | _ => []

def Item.innerHTMLOf : Item → Option String
  | Item.velem _ _ _ _ ih _ _ => ih
  | _ => none

def Item.childrenOf : Item → List Item
  | Item.velem _ _ _ _ _ ch _ => ch
  | _ => []

def Item.refOf : Item → Option Nat
  | Item.vtext _ r => r
  | Item.velem _ _ _ _ _ _ r => r
  | Item.stream _ => none

/-- `child.vnode.text = vnode.text` in the texts branch of
`remountVNodes`. -/
def Item.setTextI : Item → String → Item
  | Item.vtext _ r, t => Item.vtext t r
  | v, _ => v

/-! ### Static diff -/

/-- Verdict of `diffVNode`: `"replace"`, `"text"`, or `"none"`. -/
inductive DiffKind where
  | replace
  | text
  | same
deriving DecidableEq

/-- `diffVNode`: replace on differing element tag names or on a
text/element kind mismatch, a text update on differing text payloads,
otherwise none. -/
def diffVNode (a b : Item) : DiffKind :=
  if a.isElemI ∧ b.isElemI ∧ a.nameOf ≠ b.nameOf then DiffKind.replace
  else if (a.isElemI ∧ b.isTextI) ∨ (a.isTextI ∧ b.isElemI) then DiffKind.replace
  else if a.isTextI ∧ b.isTextI ∧ a.textOf ≠ b.textOf then DiffKind.text
  else DiffKind.same

/-- The four output sets of `diffVNodes`, each entry tagged with its
logical index. -/
structure DiffResult where
  additionals : List (Item × Nat)
  removals : List (Item × Nat)
  elements : List (Item × Nat)
  texts : List (Item × Nat)

/-- The `prevs.forEach` loop of `diffVNodes`, walking `prevs` and
`latests` in index lockstep (`latests[index]` is the aligned head,
absent once `latests` is exhausted). -/
def diffGo : List Item → List Item → Nat → DiffResult
  | [], _, _ => ⟨[], [], [], []⟩
  | p :: ps, [], i =>
    let r := diffGo ps [] (i + 1)
    { r with removals := (p, i) :: r.removals }
  | p :: ps, l :: ls, i =>
    let r := diffGo ps ls (i + 1)
    if l.isStreamI then
      { r with removals := (p, i) :: r.removals,
               additionals := (l, i) :: r.additionals }
    else if p.isStreamI then
      { r with additionals := (l, i) :: r.additionals }
    else
      match diffVNode p l with
      | DiffKind.replace =>
        { r with removals := (p, i) :: r.removals,
                 additionals := (l, i) :: r.additionals }
      | DiffKind.text => { r with texts := (l, i) :: r.texts }
      | DiffKind.same =>
        if l.isElemI then { r with elements := (l, i) :: r.elements } else r

/-- `diffVNodes`: the aligned walk plus the excess of `latests`
appended to the additionals at offset indices. -/
def diffVNodes (prevs latests : List Item) : DiffResult :=
  let r := diffGo prevs latests 0
  let excess := (latests.drop prevs.length).enum.map
    (fun e => (e.2, e.1 + prevs.length))
  { r with additionals := r.additionals ++ excess }

/-! ### Property binder -/

/-- `diffObject`: `right` holds every key of `b` whose value differs
from (or is absent in) `a`, `left` symmetrically, both in the owner's
key iteration order. -/
def assocGet {V : Type} : List (String × V) → String → Option V
  | [], _ => none
  | (k, v) :: r, key => if k = key then some v else assocGet r key

def diffObject {V : Type} [DecidableEq V] (a b : List (String × V)) :
    List (String × V) × List (String × V) :=
  let right := b.filterMap
    (fun kv => if assocGet a kv.1 = some kv.2 then none else some kv)
  let left := a.filterMap
    (fun kv => if assocGet b kv.1 = some kv.2 then none else some kv)
  (left, right)

/-- A display-surface or subscription operation recorded by the
embedding.  Physical nodes are identified by the counter value under
which `createNode` produced them. -/
inductive Op where
  | extMoveOp (pos len : Nat)
  | physInsert (node pos : Nat)
  | physRemove (pos : Nat)
  | insertBeforeOp (node : Nat) (refNode : Option Nat)
  | removeChildOp (node : Nat)
  | setAttr (node : Nat) (key val : String)
  | removeAttrOp (node : Nat) (key : String)
  | setStyle (node : Nat) (key val : String)
  | removeStylePropOp (node : Nat) (key : String)
  | setTextOp (node : Nat) (text : String)
  | setInnerHTMLOp (node : Nat) (html : Option String)
  | subAttr (node : Nat) (key : String) (sid : Nat)
  | subStyle (node : Nat) (key : String) (sid : Nat)
  | subEvent (node : Nat) (key : String) (fid : Nat)
  | unsubKey (node : Nat) (key : String)
  | cancelStream (sid : Nat)
  | refEmit (refId node : Nat) (nowMounted : Bool)
deriving DecidableEq

/-- Operations that mutate the physical display surface: physical
insertion, removal, attribute change, style change, text mutation. -/
def Op.isPhysical : Op → Bool
  | Op.physInsert _ _ => true
  | Op.physRemove _ => true
  | Op.insertBeforeOp _ _ => true
  | Op.removeChildOp _ => true
  | Op.setAttr _ _ _ => true
  | Op.removeAttrOp _ _ => true
  | Op.setStyle _ _ _ => true
  | Op.removeStylePropOp _ _ => true
  | Op.setTextOp _ _ => true
  | Op.setInnerHTMLOp _ _ => true
  | _ => false

/-- Physical additions (insertions of a node). -/
def Op.isAddition : Op → Bool
  | Op.physInsert _ _ => true
  | Op.insertBeforeOp _ _ => true
  | _ => false

/-- `Map.set(key, cancel)` on an unmount registry: keys keep their
first position. -/
def keyAdd (un : List String) (k : String) : List String :=
  if un.contains k then un else un ++ [k]

/-- `mountNodeAttrs`: constants are applied immediately, streams are
subscribed (with `distinct()`) and their cancellation recorded. -/
def mountNodeAttrs : List (String × AVal) → List String → Nat → List String × List Op
  | [], un, _ => (un, [])
  | (k, AVal.constV v) :: r, un, node =>
    let rec2 := mountNodeAttrs r un node
    (rec2.1, Op.setAttr node k v :: rec2.2)
  | (k, AVal.streamV sid) :: r, un, node =>
    let rec2 := mountNodeAttrs r (keyAdd un k) node
    (rec2.1, Op.subAttr node k sid :: rec2.2)

/-- `mountNodeStyle`. -/
def mountNodeStyle : List (String × AVal) → List String → Nat → List String × List Op
  | [], un, _ => (un, [])
  | (k, AVal.constV v) :: r, un, node =>
    let rec2 := mountNodeStyle r un node
    (rec2.1, Op.setStyle node k v :: rec2.2)
  | (k, AVal.streamV sid) :: r, un, node =>
    let rec2 := mountNodeStyle r (keyAdd un k) node
    (rec2.1, Op.subStyle node k sid :: rec2.2)

/-- `mountNodeEvents`: every handler is listened to via `fromEvent`
and its cancellation recorded. -/
def mountNodeEvents : List (String × Nat) → List String → Nat → List String × List Op
  | [], un, _ => (un, [])
  | (k, fid) :: r, un, node =>
    let rec2 := mountNodeEvents r (keyAdd un k) node
    (rec2.1, Op.subEvent node k fid :: rec2.2)

/-- `unmountNodeAttrs`: remove the attribute of every key of the given
map, and invoke and discard any recorded cancellation. -/
def unmountNodeAttrs : List (String × AVal) → List String → Nat → List String × List Op
  | [], un, _ => (un, [])
  | (k, _) :: r, un, node =>
    let here := Op.removeAttrOp node k ::
      (if un.contains k then [Op.unsubKey node k] else [])
    let rec2 := unmountNodeAttrs r (un.filter (fun s => s ≠ k)) node
    (rec2.1, here ++ rec2.2)

/-- `unmountNodeStyle`: clear the style property of every key, and
invoke and discard any recorded cancellation. -/
def unmountNodeStyle : List (String × AVal) → List String → Nat → List String × List Op
  | [], un, _ => (un, [])
  | (k, _) :: r, un, node =>
    let here := Op.removeStylePropOp node k ::
      (if un.contains k then [Op.unsubKey node k] else [])
    let rec2 := unmountNodeStyle r (un.filter (fun s => s ≠ k)) node
    (rec2.1, here ++ rec2.2)

/-- `unmountNodeEvents`: only the recorded cancellations are invoked
and discarded. -/
def unmountNodeEvents : List (String × Nat) → List String → List String × List Op
  | [], un => (un, [])
  | (k, _) :: r, un =>
    let here := if un.contains k then [Op.unsubKey 0 k] else []
    let rec2 := unmountNodeEvents r (un.filter (fun s => s ≠ k))
    (rec2.1, here ++ rec2.2)

/-- Stream-valued entries of an attribute or style map. -/
def streamPart (m : List (String × AVal)) : List (String × AVal) :=
  m.filter (fun kv => match kv.2 with | AVal.streamV _ => true | _ => false)

/-- Constant-valued entries of an attribute or style map. -/
def constPart (m : List (String × AVal)) : List (String × AVal) :=
  m.filter (fun kv => match kv.2 with | AVal.constV _ => true | _ => false)

/-! ### Mounted records and region controls

A mounted child record (`{vnode, node, control, unmounts}`) and a
region control (`{spaces, cancellations}` of `mount` or
`mountChildStream`) refer to each other, so both live in one nested
inductive `CV`.  A cancellation registry entry stores the stream id,
the space index the stream occupies in its parent, and the nested
region state its unmount closure captured. -/

inductive CV where
  | ctl (spaces : List (Nat × List (Nat × Option CV)))
      (cancels : List (Nat × Nat × CV))
  | node (nodeId : Nat) (vnode : Item) (control : Option CV)
      (unA unS unE : List String)

def CV.spacesOf : CV → Spaces CV
  | CV.ctl sp _ => sp
  | _ => []

def CV.cancelsOf : CV → List (Nat × Nat × CV)
  | CV.ctl _ cs => cs
  | _ => []

def CV.nodeIdOf : CV → Nat
  | CV.node id _ _ _ _ _ => id
  | _ => 0

def CV.vnodeOf : CV → Item
  | CV.node _ v _ _ _ _ => v
  | _ => Item.vtext "" none

def CV.controlOf : CV → Option CV
  | CV.node _ _ c _ _ _ => c
  | _ => none

def CV.unAOf : CV → List String
  | CV.node _ _ _ a _ _ => a
  | _ => []

def CV.unSOf : CV → List String
  | CV.node _ _ _ _ s _ => s
  | _ => []

def CV.unEOf : CV → List String
  | CV.node _ _ _ _ _ e => e
  | _ => []

/-- Render an allocator callback as a trace operation: `_insert` and
`_remove` of a stand-alone dynamic region address the enclosing
physical sequence by index. -/
def allocToOp : AllocOp CV → Op
  | AllocOp.extMove pos len => Op.extMoveOp pos len
  | AllocOp.extInsert c pos => Op.physInsert c.nodeIdOf pos
  | AllocOp.extRemove pos => Op.physRemove pos

/-- Lifecycle-handle publication (`ref.control.next([node, flag])`). -/
def refOps (c : CV) (flag : Bool) : List Op :=
  match c.vnodeOf.refOf with
  | some r => [Op.refEmit r c.nodeIdOf flag]
  | none => []

/-! ### Root `mount` allocator -/

/-- The `while (headSpaceKey !== null)` search in the root `insert`:
find the first mounted record after `(space, position)`, restarting
each later space from position `-1`.  The fuel (one more than the
number of spaces) dominates the strictly increasing space keys. -/
def searchHeadGo (spaces : Spaces CV) : Nat → Option Nat → Int → Option CV
  | 0, _, _ => none
  | _, none, _ => none
  | fuel + 1, some hs, p =>
    match mapGet spaces hs with
    | none => none
    | some ps =>
      match getHeadPositionKey ps p with
      | some hp =>
        match mapGet ps hp with
        | some (some c) => some c
        | _ => none
      | none => searchHeadGo spaces fuel (getHeadSpaceKey spaces hs) (-1)

def searchHead (spaces : Spaces CV) (space position : Nat) : Option CV :=
  searchHeadGo spaces (spaces.length + 1) (some space) (position : Int)

/-- `insert` of the root `mount`: shift on collision (book-keeping
only), locate the head sibling, store the record, and physically
insert before the head (append when none), publishing the lifecycle
handle. -/
def insertRoot (spaces : Spaces CV) (child : CV) (space position : Nat) :
    Spaces CV × List Op :=
  let s0 := if mapHas spaces space then spaces else mapSet spaces space []
  let s1 := if (getOcc s0 space position).isSome then moveStream s0 space position 1 else s0
  let head := searchHead s1 space position
  let s2 :=
    match mapGet s1 space with
    | none => s1
    | some ps => mapSet s1 space (mapSet ps position (some child))
  (s2, Op.insertBeforeOp child.nodeIdOf (head.map CV.nodeIdOf) :: refOps child true)

/-- `remove` of the root `mount`: a no-op on an unoccupied slot,
otherwise unbind element properties, tombstone the slot, physically
remove the node and publish the lifecycle handle. -/
def removeRoot (spaces : Spaces CV) (space position : Nat) : Spaces CV × List Op :=
  match getOcc spaces space position with
  | none => (spaces, [])
  | some child =>
    let unm :=
      if child.vnodeOf.isElemI then
        (unmountNodeAttrs child.vnodeOf.attrsOf child.unAOf child.nodeIdOf).2
        ++ (unmountNodeStyle child.vnodeOf.styleOf child.unSOf child.nodeIdOf).2
        ++ (unmountNodeEvents child.vnodeOf.eventsOf child.unEOf).2
      else []
    let s2 :=
      match mapGet spaces space with
      | none => spaces
      | some ps => mapSet spaces space (mapSet ps position none)
    (s2, unm ++ [Op.removeChildOp child.nodeIdOf] ++ refOps child false)

/-! ### Phase helpers of `remountVNodes` and of the unmount path -/

/-- One `remove(space, position)` of the region being reconciled, in
its root or dynamic-region flavour. -/
def regionRemove (isRoot : Bool) (spaces : Spaces CV) (space position : Nat) :
    Spaces CV × List Op :=
  if isRoot then removeRoot spaces space position
  else
    let rs := removeStream spaces space position
    (rs.1, rs.2.map allocToOp)

/-- `removals.forEach(({index}) => remove(index, 0))`, with the
region's own remove (root or dynamic-region flavour). -/
def applyRemovals (isRoot : Bool) : Spaces CV → List (Item × Nat) → Spaces CV × List Op
  | sp, [] => (sp, [])
  | sp, e :: rest =>
    let r := regionRemove isRoot sp e.2 0
    let res := applyRemovals isRoot r.1 rest
    (res.1, r.2 ++ res.2)

/-- The `texts.forEach` branch: read `spaces.get(index).get(0)` (a
type error when the slot is missing, as in the source), rewrite the
record's text in place and mutate the physical text payload. -/
def applyTexts : Spaces CV → List (Item × Nat) → List Op × Except String (Spaces CV)
  | sp, [] => ([], Except.ok sp)
  | sp, (v, i) :: rest =>
    match mapGet sp i with
    | none => ([], Except.error "TypeError")
    | some ps =>
      match mapGet ps 0 with
      | some (some child) =>
        let child2 := CV.node child.nodeIdOf (child.vnodeOf.setTextI v.textOf)
          child.controlOf child.unAOf child.unSOf child.unEOf
        let sp2 := mapSet sp i (mapSet ps 0 (some child2))
        let r := applyTexts sp2 rest
        (Op.setTextOp child.nodeIdOf v.textOf :: r.1, r.2)
      | _ => ([], Except.error "TypeError")

/-- Apply the `_remove(position)` requests a nested region issued
during its unmount to its parent's space `idx`, with the parent's own
remove flavour. -/
def applyRemovePositions (isRoot : Bool) (idx : Nat) :
    Spaces CV → List Nat → Spaces CV × List Op
  | sp, [] => (sp, [])
  | sp, p :: rest =>
    let r := regionRemove isRoot sp idx p
    let res := applyRemovePositions isRoot idx r.1 rest
    (res.1, r.2 ++ res.2)

/-- Like `applyRemovePositions` but inside a dynamic region being
unmounted: collect the external positions of the `_remove` requests it
forwards to its own parent. -/
def applyRemoveCollect (idx : Nat) : Spaces CV → List Nat → Spaces CV × List Nat
  | sp, [] => (sp, [])
  | sp, p :: rest =>
    let r := removeStream sp idx p
    let res := applyRemoveCollect idx r.1 rest
    (res.1,
      r.2.filterMap (fun o => match o with | AllocOp.extRemove e => some e | _ => none)
        ++ res.2)

/-- All `(spaceKey, positionKey)` pairs of a spaces map, in iteration
order (stable during the unmount sweep, since removal only tombstones). -/
def allSlotPairs (sp : Spaces CV) : List (Nat × Nat) :=
  sp.foldr (fun e acc => e.2.map (fun q => (e.1, q.1)) ++ acc) []

/-- Remove the listed `(spaceKey, positionKey)` slots in order,
collecting the forwarded `_remove` positions. -/
def removeAllGo : Spaces CV → List (Nat × Nat) → Spaces CV × List Nat
  | sp, [] => (sp, [])
  | sp, pr :: rest =>
    let r := removeStream sp pr.1 pr.2
    let res := removeAllGo r.1 rest
    (res.1,
      r.2.filterMap (fun o => match o with | AllocOp.extRemove e => some e | _ => none)
        ++ res.2)

/-- The `spaces.forEach(... remove(spaceKey, positionKey))` sweep of
`mountChildStream`'s unmount, collecting the forwarded `_remove`
positions. -/
def removeAllSweep (sp : Spaces CV) : Spaces CV × List Nat :=
  removeAllGo sp (allSlotPairs sp)

/-- `l.map((vnode, index) => ({vnode, index}))`. -/
def enumPairs (l : List Item) : List (Item × Nat) :=
  l.enum.map (fun e => (e.2, e.1))

/-! ### The reconciler engine

The mutually recursive functions `createChildNode`, `mountVNodes`,
`remountVNodes`, `updateVElement` and the cancellation/unmount path
are defunctionalised into `Call` and interpreted by the fuel-indexed
`run`; every recursive call spends one unit of fuel and exhaustion is
the explicit error `"fuel"`, so `run` is structurally recursive and
computes by `rfl`. -/

inductive Call where
  /-- `mountVNodes(vnodes, cancellations, insert, remove, move)`. -/
  | mountL (isRoot : Bool) (ctl : CV) (counter : Nat) (items : List (Item × Nat))
  /-- `remountVNodes` (cancellation pass plus `remountB`). -/
  | remountC (isRoot : Bool) (ctl : CV) (counter : Nat) (prevs latests : List Item)
  /-- The diff-driven phases of `remountVNodes`, run after the
  cancellation registry has been invoked and cleared (it receives only
  the spaces map, no registry). -/
  | remountB (isRoot : Bool) (sp : Spaces CV) (counter : Nat) (prevs latests : List Item)
  /-- The `elements.forEach` loop: `updateVElement` then
  `child.vnode = vnode` for each entry. -/
  | procElems (isRoot : Bool) (ctl : CV) (counter : Nat) (entries : List (Item × Nat))
  /-- `createChildNode`. -/
  | createChild (counter : Nat) (v : Item)
  /-- `cancellations.forEach(cancel => cancel())` of `remountVNodes`,
  applying each unmounting region's forwarded removals to this
  region's spaces. -/
  | runCancels (isRoot : Bool) (sp : Spaces CV) (cs : List (Nat × Nat × CV))
  /-- The unmount closure of one nested `mountChildStream`. -/
  | unmountCtl (sid : Nat) (c : CV)
  /-- The `cancellations.forEach` inside such an unmount. -/
  | unmountCancels (sp : Spaces CV) (cs : List (Nat × Nat × CV))

inductive Out where
  | outCtl (ctl : CV) (counter : Nat)
  | outChild (child : CV) (counter : Nat)
  | outSpaces (sp : Spaces CV)
  | outSpPoss (sp : Spaces CV) (poss : List Nat)
  | outPoss (poss : List Nat)

def run : Nat → Call → List Op × Except String Out
  | 0, _ => ([], Except.error "fuel")
  | n + 1, c =>
    match c with
    | Call.createChild k v =>
      match v with
      | Item.vtext _ _ =>
        ([], Except.ok (Out.outChild (CV.node k v none [] [] []) (k + 1)))
      | Item.stream _ =>
        ([], Except.error "Cannot create child, invalid vnode")
      | Item.velem _ attrs style events ih children _ =>
        let ma := mountNodeAttrs attrs [] k
        let ms := mountNodeStyle style [] k
        let me := mountNodeEvents events [] k
        let tIh := match ih with | some h => [Op.setInnerHTMLOp k (some h)] | none => []
        let res := run n (Call.mountL true (CV.ctl [] []) (k + 1) (enumPairs children))
        let t := ma.2 ++ ms.2 ++ me.2 ++ tIh ++ res.1
        match res.2 with
        | Except.error e => (t, Except.error e)
        | Except.ok (Out.outCtl c2 k2) =>
          (t, Except.ok (Out.outChild (CV.node k v (some c2) ma.1 ms.1 me.1) k2))
        | Except.ok _ => (t, Except.error "bad out")
    | Call.mountL isRoot ctl k items =>
      match items with
      | [] => ([], Except.ok (Out.outCtl ctl k))
      | (v, i) :: rest =>
        match v with
        | Item.stream sid =>
          let ctl2 := CV.ctl ctl.spacesOf (ctl.cancelsOf ++ [(sid, i, CV.ctl [] [])])
          run n (Call.mountL isRoot ctl2 k rest)
        | _ =>
          let res := run n (Call.createChild k v)
          match res.2 with
          | Except.error e => (res.1, Except.error e)
          | Except.ok (Out.outChild rec2 k2) =>
            let ins :=
              if isRoot then insertRoot ctl.spacesOf rec2 i 0
              else
                let is2 := insertStream ctl.spacesOf rec2 i 0
                (is2.1, is2.2.map allocToOp)
            let res3 := run n (Call.mountL isRoot (CV.ctl ins.1 ctl.cancelsOf) k2 rest)
            (res.1 ++ ins.2 ++ res3.1, res3.2)
          | Except.ok _ => (res.1, Except.error "bad out")
    | Call.remountC isRoot ctl k prevs latests =>
      let rc := run n (Call.runCancels isRoot ctl.spacesOf ctl.cancelsOf)
      match rc.2 with
      | Except.error e => (rc.1, Except.error e)
      | Except.ok (Out.outSpaces sp1) =>
        let rb := run n (Call.remountB isRoot sp1 k prevs latests)
        (rc.1 ++ rb.1, rb.2)
      | Except.ok _ => (rc.1, Except.error "bad out")
    | Call.remountB isRoot sp k prevs latests =>
      let d := diffVNodes prevs latests
      let rm := applyRemovals isRoot sp d.removals
      let tx := applyTexts rm.1 d.texts
      match tx.2 with
      | Except.error e => (rm.2 ++ tx.1, Except.error e)
      | Except.ok sp3 =>
        let pe := run n (Call.procElems isRoot (CV.ctl sp3 []) k d.elements)
        match pe.2 with
        | Except.error e => (rm.2 ++ tx.1 ++ pe.1, Except.error e)
        | Except.ok (Out.outCtl ctl4 k4) =>
          let ml := run n (Call.mountL isRoot ctl4 k4 d.additionals)
          (rm.2 ++ tx.1 ++ pe.1 ++ ml.1, ml.2)
        | Except.ok _ => (rm.2 ++ tx.1 ++ pe.1, Except.error "bad out")
    | Call.procElems isRoot ctl k entries =>
      match entries with
      | [] => ([], Except.ok (Out.outCtl ctl k))
      | (v, i) :: rest =>
        match getOcc ctl.spacesOf i 0 with
        | none => ([], Except.error "TypeError")
        | some child =>
          let nodeId := child.nodeIdOf
          let oldV := child.vnodeOf
          let ua1 := unmountNodeAttrs (streamPart oldV.attrsOf) child.unAOf nodeId
          let us1 := unmountNodeStyle (streamPart oldV.styleOf) child.unSOf nodeId
          let dA := diffObject (constPart oldV.attrsOf) v.attrsOf
          let dS := diffObject (constPart oldV.styleOf) v.styleOf
          let dE := diffObject oldV.eventsOf v.eventsOf
          let ua2 := unmountNodeAttrs dA.1 ua1.1 nodeId
          -- source line 440: the style diff is passed to
          -- unmountNodeAttrs (with the style registry), not to
          -- unmountNodeStyle
          let us2 := unmountNodeAttrs dS.1 us1.1 nodeId
          let ue1 := unmountNodeEvents dE.1 child.unEOf
          let ma := mountNodeAttrs dA.2 ua2.1 nodeId
          let ms := mountNodeStyle dS.2 us2.1 nodeId
          let me := mountNodeEvents dE.2 ue1.1 nodeId
          let tIh :=
            if oldV.innerHTMLOf ≠ v.innerHTMLOf
            then [Op.setInnerHTMLOp nodeId v.innerHTMLOf] else []
          let tProps := ua1.2 ++ us1.2 ++ ua2.2 ++ us2.2 ++ ue1.2
            ++ ma.2 ++ ms.2 ++ me.2 ++ tIh
          match child.controlOf with
          | none => (tProps, Except.error "TypeError")
          | some cctl =>
            let rr := run n (Call.remountC true cctl k oldV.childrenOf v.childrenOf)
            match rr.2 with
            | Except.error e => (tProps ++ rr.1, Except.error e)
            | Except.ok (Out.outCtl cctl2 k2) =>
              let child2 := CV.node nodeId v (some cctl2) ma.1 ms.1 me.1
              let sp2 :=
                match mapGet ctl.spacesOf i with
                | none => ctl.spacesOf
                | some ps => mapSet ctl.spacesOf i (mapSet ps 0 (some child2))
              let res := run n (Call.procElems isRoot (CV.ctl sp2 ctl.cancelsOf) k2 rest)
              (tProps ++ rr.1 ++ res.1, res.2)
            | Except.ok _ => (tProps ++ rr.1, Except.error "bad out")
    | Call.runCancels isRoot sp cs =>
      match cs with
      | [] => ([], Except.ok (Out.outSpaces sp))
      | (sid, idx, nested) :: rest =>
        let um := run n (Call.unmountCtl sid nested)
        match um.2 with
        | Except.error e => (um.1, Except.error e)
        | Except.ok (Out.outPoss poss) =>
          let ap := applyRemovePositions isRoot idx sp poss
          let res := run n (Call.runCancels isRoot ap.1 rest)
          (um.1 ++ ap.2 ++ res.1, res.2)
        | Except.ok _ => (um.1, Except.error "bad out")
    | Call.unmountCtl sid c =>
      let uc := run n (Call.unmountCancels c.spacesOf c.cancelsOf)
      match uc.2 with
      | Except.error e => (Op.cancelStream sid :: uc.1, Except.error e)
      | Except.ok (Out.outSpPoss sp1 poss1) =>
        let sw := removeAllSweep sp1
        (Op.cancelStream sid :: uc.1, Except.ok (Out.outPoss (poss1 ++ sw.2)))
      | Except.ok _ => (Op.cancelStream sid :: uc.1, Except.error "bad out")
    | Call.unmountCancels sp cs =>
      match cs with
      | [] => ([], Except.ok (Out.outSpPoss sp []))
      | (sid, idx, nested) :: rest =>
        let um := run n (Call.unmountCtl sid nested)
        match um.2 with
        | Except.error e => (um.1, Except.error e)
        | Except.ok (Out.outPoss poss) =>
          let ap := applyRemoveCollect idx sp poss
          let res := run n (Call.unmountCancels ap.1 rest)
          match res.2 with
          | Except.error e => (um.1 ++ res.1, Except.error e)
          | Except.ok (Out.outSpPoss sp3 poss3) =>
            (um.1 ++ res.1, Except.ok (Out.outSpPoss sp3 (ap.2 ++ poss3)))
          | Except.ok _ => (um.1 ++ res.1, Except.error "bad out")
        | Except.ok _ => (um.1, Except.error "bad out")

/-! ### The stand-alone dynamic region (`mountChildStream`) -/

/-- The closure state of one `mountChildStream` subscription. -/
structure DynRegion where
  ctl : CV
  counter : Nat
  prevs : List Item
  mountedFlag : Bool

/-- A fresh, not yet emitted-into region. -/
def freshRegion : DynRegion := ⟨CV.ctl [] [], 0, [], false⟩

/-- The `next(vnodes)` handler of `mountChildStream`: normalise, then
mount on the first emission and remount on later ones. -/
def regionNext (n : Nat) (st : DynRegion) (raw : List RawItem) :
    List Op × Except String DynRegion :=
  let latests := getSafeVNodes raw
  if st.mountedFlag then
    let r := run n (Call.remountC false st.ctl st.counter st.prevs latests)
    match r.2 with
    | Except.error e => (r.1, Except.error e)
    | Except.ok (Out.outCtl ctl2 k2) => (r.1, Except.ok ⟨ctl2, k2, latests, true⟩)
    | Except.ok _ => (r.1, Except.error "bad out")
  else
    let r := run n (Call.mountL false st.ctl st.counter (enumPairs latests))
    match r.2 with
    | Except.error e => (r.1, Except.error e)
    | Except.ok (Out.outCtl ctl2 k2) => (r.1, Except.ok ⟨ctl2, k2, latests, true⟩)
    | Except.ok _ => (r.1, Except.error "bad out")

/-! ### Physical surface replay (used to read traces back) -/

def insertAtIdx {γ : Type} (l : List γ) (i : Nat) (x : γ) : List γ :=
  l.take i ++ [x] ++ l.drop i

def eraseAtIdx {γ : Type} (l : List γ) (i : Nat) : List γ :=
  l.take i ++ l.drop (i + 1)

/-- Replay a trace against an enclosing surface holding
`(nodeId, textPayload)` slots in physical order. -/
def applySurface (l : List (Nat × String)) : Op → List (Nat × String)
  | Op.physInsert node pos => insertAtIdx l pos (node, "")
  | Op.physRemove pos => eraseAtIdx l pos
  | Op.setTextOp node t =>
    l.map (fun e => if e.1 = node then (node, t) else e)
  | _ => l

def replayTrace (l : List (Nat × String)) (t : List Op) : List (Nat × String) :=
  t.foldl applySurface l

/-! ### Predicates and fixtures used by the theorems -/

/-- The physical display-surface operations of a trace. -/
def physOps (t : List Op) : List Op :=
  t.filter Op.isPhysical

/-- An item tree free of streams: no stream entries, no stream-valued
attribute or style, and (as for JS objects) duplicate-free
attribute/style/event keys. -/
inductive SF : Item → Prop where
  | text : ∀ t r, SF (Item.vtext t r)
  | elem : ∀ name attrs style events ih children r,
      (∀ kv ∈ attrs, ∃ s, kv.2 = AVal.constV s) →
      (∀ kv ∈ style, ∃ s, kv.2 = AVal.constV s) →
      (attrs.map Prod.fst).Nodup →
      (style.map Prod.fst).Nodup →
      (events.map Prod.fst).Nodup →
      (∀ v ∈ children, SF v) →
      SF (Item.velem name attrs style events ih children r)

/-- The state invariant `remountVNodes` relies on: an empty
cancellation registry, and for every index a mounted record at
`(index, 0)` whose stored vnode is the previous item, with a nested
control consistent with the element's children. -/
inductive Cons : CV → List Item → Prop where
  | intro : ∀ (sp : Spaces CV) (items : List Item),
      (∀ i v, items.get? i = some v →
        ∃ rec2 : CV, getOcc sp i 0 = some rec2 ∧ rec2.vnodeOf = v ∧
          (v.isElemI = true → rec2.controlOf.isSome = true)) →
      (∀ i v c2, items.get? i = some v → v.isElemI = true →
        (getOcc sp i 0).bind CV.controlOf = some c2 → Cons c2 v.childrenOf) →
      Cons (CV.ctl sp []) items

/-- Invariant carried through the `elements.forEach` loop. -/
def EntriesOK (sp : Spaces CV) (entries : List (Item × Nat)) : Prop :=
  (entries.map Prod.snd).Nodup ∧
  ∀ e ∈ entries, SF e.1 ∧ e.1.isElemI = true ∧
    ∃ rec2 : CV, getOcc sp e.2 0 = some rec2 ∧ rec2.vnodeOf = e.1 ∧
      ∃ c2, rec2.controlOf = some c2 ∧ Cons c2 e.1.childrenOf

/-- The element entries an identical-list diff produces. -/
def elemEntries : List Item → Nat → List (Item × Nat)
  | [], _ => []
  | v :: r, i =>
    (if v.isElemI then [(v, i)] else []) ++ elemEntries r (i + 1)

/-- Aligned-index removal condition of `diffVNodes` (index below both
lengths). -/
def alignedRemoval (p l : Item) : Prop :=
  l.isStreamI = true ∨
    (l.isStreamI = false ∧ p.isStreamI = false ∧ diffVNode p l = DiffKind.replace)

/-- Aligned-index addition condition of `diffVNodes`. -/
def alignedAddition (p l : Item) : Prop :=
  l.isStreamI = true ∨ (l.isStreamI = false ∧ p.isStreamI = true) ∨
    (l.isStreamI = false ∧ p.isStreamI = false ∧ diffVNode p l = DiffKind.replace)

/-- Aligned-index text-update condition of `diffVNodes`. -/
def alignedText (p l : Item) : Prop :=
  l.isStreamI = false ∧ p.isStreamI = false ∧ diffVNode p l = DiffKind.text

/-- Aligned-index element-recursion condition of `diffVNodes`. -/
def alignedElem (p l : Item) : Prop :=
  l.isStreamI = false ∧ p.isStreamI = false ∧ diffVNode p l = DiffKind.same ∧
    l.isElemI = true

instance (p l : Item) : Decidable (alignedRemoval p l) := by
  unfold alignedRemoval; infer_instance

instance (p l : Item) : Decidable (alignedAddition p l) := by
  unfold alignedAddition; infer_instance

instance (p l : Item) : Decidable (alignedText p l) := by
  unfold alignedText; infer_instance

instance (p l : Item) : Decidable (alignedElem p l) := by
  unfold alignedElem; infer_instance

/-- Fixture: an element carrying a stream-valued attribute. -/
def c2item : Item := Item.velem "div" [("id", AVal.streamV 7)] [] [] none [] none

/-- The region control produced by mounting `[c2item]`. -/
def c2ctl : CV :=
  match (run 30 (Call.mountL false (CV.ctl [] []) 0 [(c2item, 0)])).2 with
  | Except.ok (Out.outCtl c _) => c
  | _ => CV.ctl [] []

def c2wItem : Item := Item.vtext "a" none

/-- A hand-mounted consistent state for `[c2wItem]`. -/
def c2wCtl : CV := CV.ctl [(0, [(0, some (CV.node 0 c2wItem none [] [] []))])] []

def c6raw1 : List RawItem := [RawItem.str "1", RawItem.str "2", RawItem.str "3"]

def c6raw2 : List RawItem := [RawItem.str "1", RawItem.str "3"]

/-- The dynamic-region state after the first emission `["1","2","3"]`. -/
def c6state1 : DynRegion :=
  match (regionNext 30 freshRegion c6raw1).2 with
  | Except.ok st => st
  | _ => freshRegion

/-- The trace of the second emission `["1","3"]`. -/
def c6trace2 : List Op := (regionNext 30 c6state1 c6raw2).1

def c8prev : Item := Item.velem "div" [] [("color", AVal.constV "red")] [] none [] none

def c8next : Item := Item.velem "div" [] [] [] none [] none

/-- The region control produced by mounting `[c8prev]`. -/
def c8ctl : CV :=
  match (run 30 (Call.mountL false (CV.ctl [] []) 0 [(c8prev, 0)])).2 with
  | Except.ok (Out.outCtl c _) => c
  | _ => CV.ctl [] []

/-- The trace of reconciling `[c8prev]` into `[c8next]`. -/
def c8trace : List Op := (run 30 (Call.remountC false c8ctl 1 [c8prev] [c8next])).1

/-! ## Lemmas about the map model -/

theorem mapHas_eq_isSome {β : Type} (m : List (Nat × β)) (k : Nat) :
    mapHas m k = (mapGet m k).isSome := by
  induction m with
  | nil => rfl
  | cons e r ih =>
    by_cases h : e.1 = k
    · simp [mapHas, mapGet, h]
    · simp only [mapHas, List.any_cons] at *
      simp [mapGet, h, ih]

theorem mapGet_mapSet_self {β : Type} (m : List (Nat × β)) (k : Nat) (v : β) :
    mapGet (mapSet m k v) k = some v := by
  unfold mapSet
  by_cases h : mapHas m k = true
  · simp only [h, if_true]
    induction m with
    | nil => simp [mapHas] at h
    | cons e r ih =>
      obtain ⟨k0, v0⟩ := e
      by_cases he : k0 = k
      · subst he
        simp only [List.map_cons, if_pos rfl]
        simp [mapGet]
      · simp only [List.map_cons, if_neg he]
        simp only [mapGet, if_neg he]
        apply ih
        simp only [mapHas, List.any_cons, Bool.or_eq_true, decide_eq_true_eq] at h
        rcases h with h1 | h2
        · exact absurd h1 he
        · simpa [mapHas] using h2
  · simp only [h, if_false]
    induction m with
    | nil => simp [mapGet]
    | cons e r ih =>
      obtain ⟨k0, v0⟩ := e
      simp only [mapHas, List.any_cons, Bool.or_eq_true, decide_eq_true_eq] at h
      push_neg at h
      simp only [List.cons_append, mapGet, if_neg h.1]
      apply ih
      simp only [mapHas]
      simpa using h.2

theorem mapGet_map_replace {β : Type} (m : List (Nat × β)) (k : Nat) (v : β)
    (q : Nat) (h : q ≠ k) :
    mapGet (m.map (fun e => if e.1 = k then (k, v) else e)) q = mapGet m q := by
  induction m with
  | nil => rfl
  | cons e r ih =>
    obtain ⟨k0, v0⟩ := e
    by_cases he : k0 = k
    · subst he
      simp only [List.map_cons, if_pos rfl]
      simp [mapGet, Ne.symm h, ih]
    · simp only [List.map_cons, if_neg he]
      simp [mapGet, ih]

theorem mapGet_append_single {β : Type} (m : List (Nat × β)) (k : Nat) (v : β)
    (q : Nat) (h : q ≠ k) : mapGet (m ++ [(k, v)]) q = mapGet m q := by
  induction m with
  | nil => simp [mapGet, Ne.symm h]
  | cons e r ih =>
    by_cases he : e.1 = q
    · simp [mapGet, he]
    · simp [mapGet, he, ih]

theorem mapGet_mapSet_ne {β : Type} (m : List (Nat × β)) (k : Nat) (v : β)
    (q : Nat) (h : q ≠ k) : mapGet (mapSet m k v) q = mapGet m q := by
  unfold mapSet
  by_cases hh : mapHas m k = true
  · simp only [hh, if_true]
    exact mapGet_map_replace m k v q h
  · simp only [hh, if_false]
    exact mapGet_append_single m k v q h

theorem mapGet_mem {β : Type} {m : List (Nat × β)} {k : Nat} {v : β}
    (h : mapGet m k = some v) : (k, v) ∈ m := by
  induction m with
  | nil => simp [mapGet] at h
  | cons e r ih =>
    obtain ⟨k0, v0⟩ := e
    by_cases he : k0 = k
    · simp only [mapGet, if_pos he] at h
      cases h
      subst he
      exact List.mem_cons_self _ _
    · simp only [mapGet, if_neg he] at h
      exact List.mem_cons_of_mem _ (ih h)

theorem keys_mapSet_of_has {β : Type} (m : List (Nat × β)) (k : Nat) (v : β)
    (h : mapHas m k = true) :
    (mapSet m k v).map Prod.fst = m.map Prod.fst := by
  unfold mapSet
  simp only [h, if_true, List.map_map]
  apply List.map_congr_left
  intro e _
  by_cases he : e.1 = k
  · simp [he]
  · simp [he]

theorem length_mapSet_of_has {β : Type} (m : List (Nat × β)) (k : Nat) (v : β)
    (h : mapHas m k = true) : (mapSet m k v).length = m.length := by
  unfold mapSet
  simp [h]

theorem init_le_foldl_max {α : Type} (ps : Positions α) (a : Nat) :
    a ≤ ps.foldl (fun m e => max m e.1) a := by
  induction ps generalizing a with
  | nil => simp
  | cons e r ih => exact le_trans (le_max_left a e.1) (ih (max a e.1))

theorem le_foldl_max {α : Type} (ps : Positions α) (a : Nat) {k : Nat} {v : Option α}
    (h : (k, v) ∈ ps) : k ≤ ps.foldl (fun m e => max m e.1) a := by
  induction ps generalizing a with
  | nil => simp at h
  | cons e r ih =>
    rcases List.mem_cons.mp h with h1 | h2
    · cases h1
      simp only [List.foldl_cons]
      exact le_trans (le_max_right a k) (init_le_foldl_max r (max a k))
    · simp only [List.foldl_cons]
      exact ih (max a e.1) h2

theorem le_getLargestPositionKey {α : Type} {ps : Positions α} {k : Nat} {v : Option α}
    (h : mapGet ps k = some v) : k ≤ getLargestPositionKey ps :=
  le_foldl_max ps 0 (mapGet_mem h)

theorem getLargestPositionKey_keys {α : Type} (ps : Positions α) :
    getLargestPositionKey ps = (ps.map Prod.fst).foldl max 0 := by
  unfold getLargestPositionKey
  rw [List.foldl_map]

/-! ## Lemmas about `getExternalPosition` -/

theorem foldl_ext_aux {α : Type} (S : Nat) :
    ∀ (l : Spaces α) (init : Nat),
      l.foldl
        (fun acc e =>
          if e.1 ≥ S then acc
          else
            acc + (if e.2.length = 0 then 0 else getLargestPositionKey e.2)
                + (if e.1 ≠ 0 then 1 else 0))
        init
      = init + ((l.filter (fun e => decide (e.1 < S))).map
          (fun e => (if e.2.length = 0 then 0 else getLargestPositionKey e.2)
            + (if e.1 ≠ 0 then 1 else 0))).sum := by
  intro l
  induction l with
  | nil => intro init; simp
  | cons e r ih =>
    intro init
    by_cases h : e.1 ≥ S
    · have hlt : ¬ (e.1 < S) := by omega
      simp only [List.foldl_cons, if_pos h, List.filter_cons, decide_eq_true_eq]
      rw [if_neg hlt]
      exact ih init
    · have hlt : e.1 < S := by omega
      simp only [List.foldl_cons, if_neg h, List.filter_cons, decide_eq_true_eq]
      rw [if_pos hlt]
      simp only [List.map_cons, List.sum_cons]
      rw [ih]
      omega

theorem getExternalPosition_formula {α : Type} (spaces : Spaces α) (S P : Nat) :
    getExternalPosition spaces S P
      = (if S ≠ 0 then 1 else 0)
        + ((spaces.filter (fun e => decide (e.1 < S))).map
            (fun e => (if e.2.length = 0 then 0 else getLargestPositionKey e.2)
              + (if e.1 ≠ 0 then 1 else 0))).sum
        + P := by
  unfold getExternalPosition
  rw [foldl_ext_aux]
  omega

theorem filter_lt_map_replace {α : Type} (spaces : Spaces α) (S : Nat) (x : Positions α) :
    (spaces.map (fun e => if e.1 = S then (S, x) else e)).filter
        (fun e => decide (e.1 < S))
      = spaces.filter (fun e => decide (e.1 < S)) := by
  induction spaces with
  | nil => rfl
  | cons e r ih =>
    obtain ⟨k0, ps0⟩ := e
    by_cases he : k0 = S
    · subst he
      have hnot : ¬ (k0 < k0) := by omega
      simp [List.filter_cons, hnot, ih]
    · simp only [List.map_cons, if_neg he, List.filter_cons]
      by_cases hlt : k0 < S
      · simp only [decide_eq_true_eq]
        rw [if_pos hlt, if_pos hlt, ih]
      · simp only [decide_eq_true_eq]
        rw [if_neg hlt, if_neg hlt, ih]

theorem filter_lt_mapSet {α : Type} (spaces : Spaces α) (S : Nat) (x : Positions α) :
    (mapSet spaces S x).filter (fun e => decide (e.1 < S))
      = spaces.filter (fun e => decide (e.1 < S)) := by
  unfold mapSet
  by_cases h : mapHas spaces S = true
  · simp only [h, if_true]
    exact filter_lt_map_replace spaces S x
  · simp only [h, if_false, List.filter_append]
    have hnot : ¬ (S < S) := by omega
    simp [hnot]

theorem getExternalPosition_mapSet_self {α : Type} (spaces : Spaces α) (S : Nat)
    (x : Positions α) (P : Nat) :
    getExternalPosition (mapSet spaces S x) S P = getExternalPosition spaces S P := by
  rw [getExternalPosition_formula, getExternalPosition_formula, filter_lt_mapSet]

/-- C1: for every dynamic region and request at `(space S, position P)`,
the external physical index handed to the enclosing region equals
`(1 if S ≠ 0 else 0)`, plus, for every space ordered strictly before
`S`, that space's greatest position key plus `1` if that space is
non-zero-indexed, plus `P`; and the allocator's `remove` recomputes
this value from the spaces map current at the call (shown here for the
occupied case, whose emitted `_remove` index is exactly
`getExternalPosition` of the state at that call). -/
theorem external_position_formula :
    (∀ (α : Type) (spaces : Spaces α) (S P : Nat),
      getExternalPosition spaces S P
        = (if S ≠ 0 then 1 else 0)
          + ((spaces.filter (fun e => decide (e.1 < S))).map
              (fun e => (if e.2.length = 0 then 0 else getLargestPositionKey e.2)
                + (if e.1 ≠ 0 then 1 else 0))).sum
          + P) ∧
    (∀ (α : Type) (spaces : Spaces α) (S P : Nat) (c : α),
      getOcc spaces S P = some c →
      (removeStream spaces S P).2
        = [AllocOp.extRemove (getExternalPosition spaces S P)]) := by
  constructor
  · intro α spaces S P
    exact getExternalPosition_formula spaces S P
  · intro α spaces S P c h
    unfold removeStream
    rw [h]

/-- Witness for `external_position_formula` at a concrete occupied
slot. -/
theorem external_position_formula_witness :
    getOcc [(0, [(0, some 7)]), (2, [(1, some (8 : Nat))])] 2 1 = some 8 ∧
    (removeStream [(0, [(0, some 7)]), (2, [(1, some (8 : Nat))])] 2 1).2
      = [AllocOp.extRemove
          (getExternalPosition [(0, [(0, some 7)]), (2, [(1, some (8 : Nat))])] 2 1)] :=
  ⟨by decide,
   external_position_formula.2 Nat [(0, [(0, some 7)]), (2, [(1, some 8)])] 2 1 8
     (by decide)⟩

/-- C10: removing an unoccupied `(space, position)` — space absent,
key absent, or tombstoned — issues no operation and leaves the spaces
map unchanged, in both the dynamic-region and the root allocator;
consequently removal is idempotent: a second removal of the same slot
is always a no-op. -/
theorem remove_unoccupied_noop_idempotent :
    (∀ (α : Type) (spaces : Spaces α) (S P : Nat),
      getOcc spaces S P = none → removeStream spaces S P = (spaces, [])) ∧
    (∀ (α : Type) (spaces : Spaces α) (S P : Nat),
      removeStream (removeStream spaces S P).1 S P
        = ((removeStream spaces S P).1, ([] : List (AllocOp α)))) ∧
    (∀ (spaces : Spaces CV) (S P : Nat),
      getOcc spaces S P = none → removeRoot spaces S P = (spaces, [])) := by
  refine ⟨?_, ?_, ?_⟩
  · intro α spaces S P h
    unfold removeStream
    rw [h]
  · intro α spaces S P
    cases h : getOcc spaces S P with
    | none =>
      have h1 : removeStream spaces S P = (spaces, []) := by
        unfold removeStream; rw [h]
      rw [h1]
      unfold removeStream
      rw [h]
    | some c =>
      cases hm : mapGet spaces S with
      | none => simp [getOcc, hm] at h
      | some ps =>
        have h1 : (removeStream spaces S P).1 = mapSet spaces S (mapSet ps P none) := by
          unfold removeStream; rw [h, hm]
        have h2 : getOcc (mapSet spaces S (mapSet ps P none)) S P = none := by
          unfold getOcc
          rw [mapGet_mapSet_self]
          show (match mapGet (mapSet ps P none) P with
            | some (some c) => some c
            | _ => none) = none
          rw [mapGet_mapSet_self]
        rw [h1]
        unfold removeStream
        rw [h2]
  · intro spaces S P h
    unfold removeRoot
    rw [h]

/-- Witness for `remove_unoccupied_noop_idempotent`: a tombstoned
slot. -/
theorem remove_unoccupied_noop_idempotent_witness :
    getOcc [(0, [(0, (none : Option Nat))])] 0 0 = none ∧
    removeStream [(0, [(0, (none : Option Nat))])] 0 0
      = ([(0, [(0, (none : Option Nat))])], []) :=
  ⟨by decide,
   remove_unoccupied_noop_idempotent.1 Nat [(0, [(0, none)])] 0 0 (by decide)⟩

/-! ## Lemmas about `moveStream` and the shift of a space -/

theorem mapHas_append {β : Type} (l1 l2 : List (Nat × β)) (k : Nat) :
    mapHas (l1 ++ l2) k = (mapHas l1 k || mapHas l2 k) := by
  simp [mapHas, List.any_append]

theorem foldl_mapSet_fresh {β : Type} :
    ∀ (l acc : List (Nat × β)),
      (∀ e ∈ l, mapHas acc e.1 = false) → (l.map Prod.fst).Nodup →
      l.foldl (fun a e => mapSet a e.1 e.2) acc = acc ++ l := by
  intro l
  induction l with
  | nil => intro acc _ _; simp
  | cons e r ih =>
    intro acc hfresh hnodup
    simp only [List.foldl_cons]
    have h1 : mapSet acc e.1 e.2 = acc ++ [e] := by
      unfold mapSet
      rw [hfresh e (List.mem_cons_self e r)]
      simp
    rw [h1, ih (acc ++ [e])]
    · simp
    · intro f hf
      rw [mapHas_append]
      have h2 : mapHas acc f.1 = false := hfresh f (List.mem_cons_of_mem _ hf)
      have h3 : mapHas [e] f.1 = false := by
        simp only [List.map_cons, List.nodup_cons] at hnodup
        have : f.1 ∈ r.map Prod.fst := List.mem_map_of_mem _ hf
        have hne : e.1 ≠ f.1 := fun hc => hnodup.1 (hc ▸ this)
        simp [mapHas, hne]
      rw [h2, h3]
      rfl
    · simp only [List.map_cons, List.nodup_cons] at hnodup
      exact hnodup.2

theorem mapGet_map_inj {β : Type} (f : Nat → Nat) (hf : Function.Injective f)
    (ps : List (Nat × β)) (k : Nat) :
    mapGet (ps.map (fun e => (f e.1, e.2))) (f k) = mapGet ps k := by
  induction ps with
  | nil => rfl
  | cons e r ih =>
    by_cases he : e.1 = k
    · simp [mapGet, he]
    · have hne : ¬ (f e.1 = f k) := fun hc => he (hf hc)
      simp [mapGet, he, hne, ih]

theorem shiftKey_inj (P len : Nat) (h : 0 < len) :
    Function.Injective (fun k => if P > k then k else k + len) := by
  intro a b hab
  simp only at hab
  split_ifs at hab <;> omega

theorem moveStream_eq {α : Type} (spaces : Spaces α) (S P : Nat) (ps : Positions α)
    (hm : mapGet spaces S = some ps) (hocc : getOcc spaces S P ≠ none)
    (hnd : (ps.map Prod.fst).Nodup) :
    moveStream spaces S P 1
      = mapSet spaces S (ps.map (fun e => ((if P > e.1 then e.1 else e.1 + 1), e.2))) := by
  unfold moveStream
  have hhas : mapHas spaces S = true := by
    rw [mapHas_eq_isSome, hm]; rfl
  have hguard : (!mapHas spaces S || (getOcc spaces S P).isNone) = false := by
    rw [hhas]
    cases hg : getOcc spaces S P with
    | none => exact absurd hg hocc
    | some c => rfl
  rw [hguard]
  simp only [Bool.false_eq_true, if_false]
  rw [hm]
  show mapSet spaces S
      (ps.foldl (fun acc e => mapSet acc (if P > e.1 then e.1 else e.1 + 1) e.2) [])
    = mapSet spaces S (ps.map (fun e => ((if P > e.1 then e.1 else e.1 + 1), e.2)))
  congr 1
  have h1 : ps.foldl (fun acc e => mapSet acc (if P > e.1 then e.1 else e.1 + 1) e.2) []
      = (ps.map (fun e => ((if P > e.1 then e.1 else e.1 + 1), e.2))).foldl
          (fun a e => mapSet a e.1 e.2) [] := by
    rw [List.foldl_map]
  rw [h1, foldl_mapSet_fresh]
  · simp
  · intro e _; rfl
  · have h2 : (ps.map (fun e => ((if P > e.1 then e.1 else e.1 + 1), e.2))).map Prod.fst
        = (ps.map Prod.fst).map (fun k => if P > k then k else k + 1) := by
      simp [List.map_map]
    rw [h2]
    exact hnd.map (shiftKey_inj P 1 (by omega))

theorem insertStream_occupied_eq {α : Type} (spaces : Spaces α) (child : α) (S P : Nat)
    (ps : Positions α) (hm : mapGet spaces S = some ps)
    (hp : ∃ c, mapGet ps P = some (some c))
    (hnd : (ps.map Prod.fst).Nodup) :
    insertStream spaces child S P
      = (mapSet (mapSet spaces S (ps.map (fun e => ((if P > e.1 then e.1 else e.1 + 1), e.2)))) S
           (mapSet (ps.map (fun e => ((if P > e.1 then e.1 else e.1 + 1), e.2))) P (some child)),
         [AllocOp.extMove (getExternalPosition spaces S P) 1,
          AllocOp.extInsert child (getExternalPosition spaces S P)]) := by
  obtain ⟨c, hp⟩ := hp
  have hhas : mapHas spaces S = true := by rw [mapHas_eq_isSome, hm]; rfl
  have hocc : getOcc spaces S P = some c := by
    unfold getOcc
    rw [hm]
    show (match mapGet ps P with
      | some (some c) => some c
      | _ => none) = some c
    rw [hp]
  have hmv := moveStream_eq spaces S P ps hm (by simp [hocc]) hnd
  unfold insertStream
  simp only [hhas, if_true, hocc, Option.isSome_some, hmv]
  rw [mapGet_mapSet_self, getExternalPosition_mapSet_self]
  rfl

/-- C5: inserting at an already occupied `(space, position)` shifts
every entry of that space at or after the position right by exactly
one, and the physical move, addressed at the occupied slot's external
index, is propagated to the enclosing region before the new record's
physical insertion. -/
theorem insert_occupied_shifts_right :
    ∀ (α : Type) (spaces : Spaces α) (child : α) (S P : Nat) (r0 : α) (ps : Positions α),
      mapGet spaces S = some ps →
      mapGet ps P = some (some r0) →
      (ps.map Prod.fst).Nodup →
      ((insertStream spaces child S P).2
        = [AllocOp.extMove (getExternalPosition spaces S P) 1,
           AllocOp.extInsert child (getExternalPosition spaces S P)]) ∧
      ∃ ps2 : Positions α,
        mapGet (insertStream spaces child S P).1 S = some ps2 ∧
        mapGet ps2 P = some (some child) ∧
        (∀ k w, mapGet ps k = some w →
          (k < P → mapGet ps2 k = some w) ∧ (P ≤ k → mapGet ps2 (k + 1) = some w)) := by
  intro α spaces child S P r0 ps hm hp hnd
  rw [insertStream_occupied_eq spaces child S P ps hm ⟨r0, hp⟩ hnd]
  refine ⟨rfl, ?_⟩
  refine ⟨mapSet (ps.map (fun e => ((if P > e.1 then e.1 else e.1 + 1), e.2))) P (some child),
    ?_, ?_, ?_⟩
  · rw [mapGet_mapSet_self]
  · rw [mapGet_mapSet_self]
  · intro k w hk
    constructor
    · intro hkP
      have hne : k ≠ P := by omega
      rw [mapGet_mapSet_ne _ _ _ _ hne]
      have h2 := mapGet_map_inj (fun q => if P > q then q else q + 1)
        (shiftKey_inj P 1 (by omega)) ps k
      simp only [show (if P > k then k else k + 1) = k from if_pos (by omega)] at h2
      rw [h2, hk]
    · intro hPk
      have hne : k + 1 ≠ P := by omega
      rw [mapGet_mapSet_ne _ _ _ _ hne]
      have h2 := mapGet_map_inj (fun q => if P > q then q else q + 1)
        (shiftKey_inj P 1 (by omega)) ps k
      simp only [show (if P > k then k else k + 1) = k + 1 from if_neg (by omega)] at h2
      rw [h2, hk]

/-- Witness for `insert_occupied_shifts_right`. -/
theorem insert_occupied_shifts_right_witness :
    mapGet [(0, [(0, some 1), (1, some 2)])] 0 = some [(0, some (1 : Nat)), (1, some 2)] ∧
    mapGet [(0, some (1 : Nat)), (1, some 2)] 0 = some (some 1) ∧
    ((insertStream [(0, [(0, some 1), (1, some 2)])] (9 : Nat) 0 0).2
      = [AllocOp.extMove (getExternalPosition [(0, [(0, some (1 : Nat)), (1, some 2)])] 0 0) 1,
         AllocOp.extInsert 9 (getExternalPosition [(0, [(0, some (1 : Nat)), (1, some 2)])] 0 0)]) :=
  ⟨by decide, by decide,
   (insert_occupied_shifts_right Nat [(0, [(0, some 1), (1, some 2)])] 9 0 0 1
     [(0, some 1), (1, some 2)] (by decide) (by decide) (by decide)).1⟩

theorem getLargestPositionKey_mapSet_of_has {α : Type} (ps : Positions α) (P : Nat)
    (v : Option α) (h : mapHas ps P = true) :
    getLargestPositionKey (mapSet ps P v) = getLargestPositionKey ps := by
  rw [getLargestPositionKey_keys, getLargestPositionKey_keys, keys_mapSet_of_has _ _ _ h]

theorem insertStream_unoccupied_nomove {α : Type} (spaces : Spaces α) (child : α)
    (S P : Nat) (ps : Positions α) (hm : mapGet spaces S = some ps)
    (hocc : getOcc spaces S P = none)
    (hlen : ps.length ≠ 0)
    (hle : P ≤ getLargestPositionKey ps) :
    insertStream spaces child S P
      = (mapSet spaces S (mapSet ps P (some child)),
         [AllocOp.extInsert child (getExternalPosition spaces S P)]) := by
  have hhas : mapHas spaces S = true := by rw [mapHas_eq_isSome, hm]; rfl
  have hgt : ¬ (P > getLargestPositionKey ps) := by omega
  unfold insertStream
  simp only [hhas, if_true, hocc, Option.isSome_none, Bool.false_eq_true, if_false]
  cases hh : getHeadSpaceKey spaces S with
  | none =>
    simp only [hm]
    rfl
  | some hk =>
    cases hhp : mapGet spaces hk with
    | none =>
      simp only [hhp, hm]
      rfl
    | some headPs =>
      by_cases hl : headPs.length ≠ 0
      · simp only [hhp, hl, if_true, hm, hlen, hgt, if_false]
        simp only [ite_self]
        simp only [hm]
        rfl
      · simp only [hhp, hl, if_false, hm]
        rfl

/-- C9: removing the occupant of `(space, position)` and immediately
re-inserting at the same slot yields the same computed external
physical index as before the removal (no move is propagated, and the
slot is occupied again by the new record). -/
theorem remove_insert_same_external_index :
    ∀ (α : Type) (spaces : Spaces α) (S P : Nat) (r0 c2 : α) (ps : Positions α),
      mapGet spaces S = some ps →
      mapGet ps P = some (some r0) →
      ((insertStream (removeStream spaces S P).1 c2 S P).2
        = [AllocOp.extInsert c2 (getExternalPosition spaces S P)]) ∧
      getOcc (insertStream (removeStream spaces S P).1 c2 S P).1 S P = some c2 := by
  intro α spaces S P r0 c2 ps hm hp
  have hocc : getOcc spaces S P = some r0 := by
    unfold getOcc
    rw [hm]
    show (match mapGet ps P with
      | some (some c) => some c
      | _ => none) = some r0
    rw [hp]
  have h1 : (removeStream spaces S P).1 = mapSet spaces S (mapSet ps P none) := by
    unfold removeStream
    rw [hocc, hm]
  have hpp : mapHas ps P = true := by rw [mapHas_eq_isSome, hp]; rfl
  have hg1 : mapGet (mapSet spaces S (mapSet ps P none)) S = some (mapSet ps P none) :=
    mapGet_mapSet_self _ _ _
  have hocc1 : getOcc (mapSet spaces S (mapSet ps P none)) S P = none := by
    unfold getOcc
    rw [hg1]
    show (match mapGet (mapSet ps P none) P with
      | some (some c) => some c
      | _ => none) = none
    rw [mapGet_mapSet_self]
  have hlen : (mapSet ps P none).length ≠ 0 := by
    rw [length_mapSet_of_has _ _ _ hpp]
    have := mapGet_mem hp
    cases ps with
    | nil => simp at this
    | cons e r => simp
  have hle : P ≤ getLargestPositionKey (mapSet ps P none) := by
    rw [getLargestPositionKey_mapSet_of_has _ _ _ hpp]
    exact le_getLargestPositionKey hp
  have h2 := insertStream_unoccupied_nomove (mapSet spaces S (mapSet ps P none)) c2 S P
    (mapSet ps P none) hg1 hocc1 hlen hle
  rw [h1, h2]
  constructor
  · rw [getExternalPosition_mapSet_self]
  · unfold getOcc
    rw [mapGet_mapSet_self]
    show (match mapGet (mapSet (mapSet ps P none) P (some c2)) P with
      | some (some c) => some c
      | _ => none) = some c2
    rw [mapGet_mapSet_self]

/-- Witness for `remove_insert_same_external_index`. -/
theorem remove_insert_same_external_index_witness :
    mapGet [(0, [(0, some 1), (1, some 2)])] 0 = some [(0, some (1 : Nat)), (1, some 2)] ∧
    mapGet [(0, some (1 : Nat)), (1, some 2)] 1 = some (some 2) ∧
    ((insertStream (removeStream [(0, [(0, some (1 : Nat)), (1, some 2)])] 0 1).1 9 0 1).2
      = [AllocOp.extInsert 9 (getExternalPosition [(0, [(0, some (1 : Nat)), (1, some 2)])] 0 1)]) :=
  ⟨by decide, by decide,
   (remove_insert_same_external_index Nat [(0, [(0, some 1), (1, some 2)])] 0 1 2 9
     [(0, some 1), (1, some 2)] (by decide) (by decide)).1⟩

/-! ## Lemmas about the static diff -/

theorem diffGo_cons_cons (ph lh : Item) (pt lt : List Item) (i0 : Nat) :
    diffGo (ph :: pt) (lh :: lt) i0
      = ⟨(if alignedAddition ph lh then [(lh, i0)] else [])
           ++ (diffGo pt lt (i0 + 1)).additionals,
         (if alignedRemoval ph lh then [(ph, i0)] else [])
           ++ (diffGo pt lt (i0 + 1)).removals,
         (if alignedElem ph lh then [(lh, i0)] else [])
           ++ (diffGo pt lt (i0 + 1)).elements,
         (if alignedText ph lh then [(lh, i0)] else [])
           ++ (diffGo pt lt (i0 + 1)).texts⟩ := by
  simp only [diffGo]
  by_cases hls : lh.isStreamI = true
  · have h1 : alignedAddition ph lh := Or.inl hls
    have h2 : alignedRemoval ph lh := Or.inl hls
    have h3 : ¬ alignedElem ph lh := by simp [alignedElem, hls]
    have h4 : ¬ alignedText ph lh := by simp [alignedText, hls]
    simp [hls, h1, h2, h3, h4]
  · have hls2 : lh.isStreamI = false := by simpa using hls
    by_cases hps : ph.isStreamI = true
    · have h1 : alignedAddition ph lh := Or.inr (Or.inl ⟨hls2, hps⟩)
      have h2 : ¬ alignedRemoval ph lh := by
        simp [alignedRemoval, hls2, hps]
      have h3 : ¬ alignedElem ph lh := by simp [alignedElem, hps]
      have h4 : ¬ alignedText ph lh := by simp [alignedText, hps]
      simp [hls2, hps, h1, h2, h3, h4]
    · have hps2 : ph.isStreamI = false := by simpa using hps
      cases hdv : diffVNode ph lh with
      | replace =>
        have h1 : alignedAddition ph lh := Or.inr (Or.inr ⟨hls2, hps2, hdv⟩)
        have h2 : alignedRemoval ph lh := Or.inr ⟨hls2, hps2, hdv⟩
        have h3 : ¬ alignedElem ph lh := by simp [alignedElem, hdv]
        have h4 : ¬ alignedText ph lh := by simp [alignedText, hdv]
        simp [hls2, hps2, hdv, h1, h2, h3, h4]
      | text =>
        have h1 : ¬ alignedAddition ph lh := by
          simp [alignedAddition, hls2, hps2, hdv]
        have h2 : ¬ alignedRemoval ph lh := by
          simp [alignedRemoval, hls2, hps2, hdv]
        have h3 : ¬ alignedElem ph lh := by simp [alignedElem, hdv]
        have h4 : alignedText ph lh := ⟨hls2, hps2, hdv⟩
        simp [hls2, hps2, hdv, h1, h2, h3, h4]
      | same =>
        have h1 : ¬ alignedAddition ph lh := by
          simp [alignedAddition, hls2, hps2, hdv]
        have h2 : ¬ alignedRemoval ph lh := by
          simp [alignedRemoval, hls2, hps2, hdv]
        have h4 : ¬ alignedText ph lh := by simp [alignedText, hdv]
        by_cases hel : lh.isElemI = true
        · have h3 : alignedElem ph lh := ⟨hls2, hps2, hdv, hel⟩
          simp [hls2, hps2, hdv, hel, h1, h2, h3, h4]
        · have h3 : ¬ alignedElem ph lh := by simp [alignedElem, hel]
          simp [hls2, hps2, hdv, hel, h1, h2, h3, h4]

theorem diffGo_nil_right_fields :
    ∀ (p : List Item) (i0 : Nat),
      (diffGo p [] i0).additionals = [] ∧ (diffGo p [] i0).elements = [] ∧
      (diffGo p [] i0).texts = [] := by
  intro p
  induction p with
  | nil => intro i0; exact ⟨rfl, rfl, rfl⟩
  | cons ph pt ih =>
    intro i0
    simp only [diffGo]
    exact ⟨(ih (i0 + 1)).1, (ih (i0 + 1)).2.1, (ih (i0 + 1)).2.2⟩

theorem diffGo_nil_right_removals_mem :
    ∀ (p : List Item) (i0 : Nat) (v : Item) (i : Nat),
      ((v, i) ∈ (diffGo p [] i0).removals) ↔ ∃ k, i = i0 + k ∧ p[k]? = some v := by
  intro p
  induction p with
  | nil =>
    intro i0 v i
    constructor
    · intro h; simp [diffGo] at h
    · rintro ⟨k, _, hk⟩; simp at hk
  | cons ph pt ih =>
    intro i0 v i
    simp only [diffGo]
    constructor
    · intro h
      rcases List.mem_cons.mp h with h1 | h2
      · injection h1 with hv hi
        exact ⟨0, by omega, by simp [hv.symm]⟩
      · obtain ⟨k, hik, hpk⟩ := (ih (i0 + 1) v i).mp h2
        exact ⟨k + 1, by omega, by simpa using hpk⟩
    · rintro ⟨k, hik, hpk⟩
      cases k with
      | zero =>
        have hv : ph = v := by simpa using hpk
        have hi : i = i0 := by omega
        subst hv; subst hi
        exact List.mem_cons_self _ _
      | succ k2 =>
        exact List.mem_cons_of_mem _
          ((ih (i0 + 1) v i).mpr ⟨k2, by omega, by simpa using hpk⟩)

theorem diffGo_removals_mem :
    ∀ (p l : List Item) (i0 : Nat) (v : Item) (i : Nat),
      ((v, i) ∈ (diffGo p l i0).removals) ↔
        ∃ k, i = i0 + k ∧ p[k]? = some v ∧
          (l[k]? = none ∨ ∃ w, l[k]? = some w ∧ alignedRemoval v w) := by
  intro p
  induction p with
  | nil =>
    intro l i0 v i
    constructor
    · intro h
      cases l <;> simp [diffGo] at h
    · rintro ⟨k, _, hk, _⟩; simp at hk
  | cons ph pt ih =>
    intro l i0 v i
    cases l with
    | nil =>
      constructor
      · intro h
        obtain ⟨k, hik, hpk⟩ := (diffGo_nil_right_removals_mem _ _ v i).mp h
        exact ⟨k, hik, hpk, Or.inl (by simp)⟩
      · rintro ⟨k, hik, hpk, _⟩
        exact (diffGo_nil_right_removals_mem _ _ v i).mpr ⟨k, hik, hpk⟩
    | cons lh lt =>
      rw [diffGo_cons_cons]
      simp only [List.mem_append]
      constructor
      · intro h
        rcases h with h1 | h2
        · by_cases hc : alignedRemoval ph lh
          · rw [if_pos hc] at h1
            simp only [List.mem_singleton] at h1
            injection h1 with hv hi
            refine ⟨0, by omega, by simp [hv.symm], Or.inr ⟨lh, by simp, ?_⟩⟩
            rw [hv]
            exact hc
          · rw [if_neg hc] at h1
            simp at h1
        · obtain ⟨k, hik, hpk, hcond⟩ := (ih lt (i0 + 1) v i).mp h2
          refine ⟨k + 1, by omega, by simpa using hpk, ?_⟩
          rcases hcond with hn | ⟨w, hw, hal⟩
          · exact Or.inl (by simpa using hn)
          · exact Or.inr ⟨w, by simpa using hw, hal⟩
      · rintro ⟨k, hik, hpk, hcond⟩
        cases k with
        | zero =>
          left
          rcases hcond with hn | ⟨w, hw, hal⟩
          · simp at hn
          · have hv : ph = v := by simpa using hpk
            have hw2 : lh = w := by simpa using hw
            rw [if_pos (by rw [← hv] at hal; rw [← hw2] at hal; exact hal)]
            simp [hv, hik]
        | succ k2 =>
          right
          refine (ih lt (i0 + 1) v i).mpr ⟨k2, by omega, by simpa using hpk, ?_⟩
          rcases hcond with hn | ⟨w, hw, hal⟩
          · exact Or.inl (by simpa using hn)
          · exact Or.inr ⟨w, by simpa using hw, hal⟩

theorem diffGo_latest_mem
    (field : DiffResult → List (Item × Nat)) (cond : Item → Item → Prop)
    [∀ p l, Decidable (cond p l)]
    (hnil : ∀ p i0, field (diffGo p [] i0) = [])
    (hcons : ∀ ph lh pt lt i0,
      field (diffGo (ph :: pt) (lh :: lt) i0)
        = (if cond ph lh then [(lh, i0)] else []) ++ field (diffGo pt lt (i0 + 1)))
    (hempty : ∀ l i0, field (diffGo [] l i0) = []) :
    ∀ (p l : List Item) (i0 : Nat) (w : Item) (i : Nat),
      ((w, i) ∈ field (diffGo p l i0)) ↔
        ∃ k, i = i0 + k ∧ ∃ v, p[k]? = some v ∧ l[k]? = some w ∧ cond v w := by
  intro p
  induction p with
  | nil =>
    intro l i0 w i
    rw [hempty]
    constructor
    · intro h; simp at h
    · rintro ⟨k, _, v, hv, _⟩; simp at hv
  | cons ph pt ih =>
    intro l i0 w i
    cases l with
    | nil =>
      rw [hnil]
      constructor
      · intro h; simp at h
      · rintro ⟨k, _, v, _, hw, _⟩; simp at hw
    | cons lh lt =>
      rw [hcons]
      simp only [List.mem_append]
      constructor
      · intro h
        rcases h with h1 | h2
        · by_cases hc : cond ph lh
          · rw [if_pos hc] at h1
            simp only [List.mem_singleton] at h1
            injection h1 with hw hi
            exact ⟨0, by omega, ph, by simp, by simp [hw.symm], by rw [hw]; exact hc⟩
          · rw [if_neg hc] at h1
            simp at h1
        · obtain ⟨k, hik, v, hv, hw, hcond⟩ := (ih lt (i0 + 1) w i).mp h2
          exact ⟨k + 1, by omega, v, by simpa using hv, by simpa using hw, hcond⟩
      · rintro ⟨k, hik, v, hv, hw, hcond⟩
        cases k with
        | zero =>
          left
          have hv2 : ph = v := by simpa using hv
          have hw2 : lh = w := by simpa using hw
          rw [if_pos (by rw [← hv2] at hcond; rw [← hw2] at hcond; exact hcond)]
          simp [hw2, hik]
        | succ k2 =>
          right
          exact (ih lt (i0 + 1) w i).mpr
            ⟨k2, by omega, v, by simpa using hv, by simpa using hw, hcond⟩

theorem diffGo_additionals_mem (p l : List Item) (i0 : Nat) (w : Item) (i : Nat) :
    ((w, i) ∈ (diffGo p l i0).additionals) ↔
      ∃ k, i = i0 + k ∧ ∃ v, p[k]? = some v ∧ l[k]? = some w ∧ alignedAddition v w :=
  diffGo_latest_mem DiffResult.additionals alignedAddition
    (fun p i0 => (diffGo_nil_right_fields p i0).1)
    (fun ph lh pt lt i0 => by rw [diffGo_cons_cons])
    (fun l i0 => by cases l <;> rfl) p l i0 w i

theorem diffGo_elements_mem (p l : List Item) (i0 : Nat) (w : Item) (i : Nat) :
    ((w, i) ∈ (diffGo p l i0).elements) ↔
      ∃ k, i = i0 + k ∧ ∃ v, p[k]? = some v ∧ l[k]? = some w ∧ alignedElem v w :=
  diffGo_latest_mem DiffResult.elements alignedElem
    (fun p i0 => (diffGo_nil_right_fields p i0).2.1)
    (fun ph lh pt lt i0 => by rw [diffGo_cons_cons])
    (fun l i0 => by cases l <;> rfl) p l i0 w i

theorem diffGo_texts_mem (p l : List Item) (i0 : Nat) (w : Item) (i : Nat) :
    ((w, i) ∈ (diffGo p l i0).texts) ↔
      ∃ k, i = i0 + k ∧ ∃ v, p[k]? = some v ∧ l[k]? = some w ∧ alignedText v w :=
  diffGo_latest_mem DiffResult.texts alignedText
    (fun p i0 => (diffGo_nil_right_fields p i0).2.2)
    (fun ph lh pt lt i0 => by rw [diffGo_cons_cons])
    (fun l i0 => by cases l <;> rfl) p l i0 w i

theorem excess_mem (p l : List Item) (w : Item) (i : Nat) :
    ((w, i) ∈ ((l.drop p.length).enum.map (fun e => (e.2, e.1 + p.length)))) ↔
      (p.length ≤ i ∧ l[i]? = some w) := by
  constructor
  · intro h
    simp only [List.mem_map] at h
    obtain ⟨⟨j, x⟩, hj, he⟩ := h
    injection he with h1 h2
    rw [List.mk_mem_enum_iff_getElem?] at hj
    rw [List.getElem?_drop] at hj
    subst h1
    constructor
    · omega
    · have : p.length + j = i := by omega
      rw [← this]
      exact hj
  · rintro ⟨hle, hw⟩
    refine List.mem_map.mpr ⟨(i - p.length, w), ?_, ?_⟩
    · rw [List.mk_mem_enum_iff_getElem?, List.getElem?_drop]
      have h2 : p.length + (i - p.length) = i := by omega
      rw [h2]
      exact hw
    · have h3 : i - p.length + p.length = i := by omega
      simp [h3]

theorem diffVNodes_removals_mem (p l : List Item) (v : Item) (i : Nat) :
    ((v, i) ∈ (diffVNodes p l).removals) ↔
      i < p.length ∧ p[i]? = some v ∧
        (l[i]? = none ∨ ∃ w, l[i]? = some w ∧ alignedRemoval v w) := by
  show ((v, i) ∈ (diffGo p l 0).removals) ↔ _
  rw [diffGo_removals_mem]
  constructor
  · rintro ⟨k, hik, hpk, hc⟩
    have hk : k = i := by omega
    subst hk
    have hlt : k < p.length := by
      by_contra hge
      push_neg at hge
      rw [List.getElem?_eq_none hge] at hpk
      cases hpk
    exact ⟨hlt, hpk, hc⟩
  · rintro ⟨hlen, hp, hc⟩
    exact ⟨i, by omega, hp, hc⟩

theorem lt_length_of_getElem? {γ : Type} {l : List γ} {i : Nat} {v : γ}
    (h : l[i]? = some v) : i < l.length := by
  by_contra hge
  push_neg at hge
  rw [List.getElem?_eq_none hge] at h
  cases h

theorem diffVNodes_additionals_mem (p l : List Item) (w : Item) (i : Nat) :
    ((w, i) ∈ (diffVNodes p l).additionals) ↔
      ((i < p.length ∧ ∃ v, p[i]? = some v ∧ l[i]? = some w ∧ alignedAddition v w)
        ∨ (p.length ≤ i ∧ l[i]? = some w)) := by
  show ((w, i) ∈ (diffGo p l 0).additionals
      ++ ((l.drop p.length).enum.map (fun e => (e.2, e.1 + p.length)))) ↔ _
  rw [List.mem_append, diffGo_additionals_mem, excess_mem]
  constructor
  · rintro (⟨k, hik, v, hv, hw, hc⟩ | h2)
    · have hk : k = i := by omega
      subst hk
      exact Or.inl ⟨lt_length_of_getElem? hv, v, hv, hw, hc⟩
    · exact Or.inr h2
  · rintro (⟨hlt, v, hv, hw, hc⟩ | h2)
    · exact Or.inl ⟨i, by omega, v, hv, hw, hc⟩
    · exact Or.inr h2

theorem diffVNodes_texts_mem (p l : List Item) (w : Item) (i : Nat) :
    ((w, i) ∈ (diffVNodes p l).texts) ↔
      ∃ v, p[i]? = some v ∧ l[i]? = some w ∧ alignedText v w := by
  show ((w, i) ∈ (diffGo p l 0).texts) ↔ _
  rw [diffGo_texts_mem]
  constructor
  · rintro ⟨k, hik, v, hv, hw, hc⟩
    have hk : k = i := by omega
    subst hk
    exact ⟨v, hv, hw, hc⟩
  · rintro ⟨v, hv, hw, hc⟩
    exact ⟨i, by omega, v, hv, hw, hc⟩

theorem diffVNodes_elements_mem (p l : List Item) (w : Item) (i : Nat) :
    ((w, i) ∈ (diffVNodes p l).elements) ↔
      ∃ v, p[i]? = some v ∧ l[i]? = some w ∧ alignedElem v w := by
  show ((w, i) ∈ (diffGo p l 0).elements) ↔ _
  rw [diffGo_elements_mem]
  constructor
  · rintro ⟨k, hik, v, hv, hw, hc⟩
    have hk : k = i := by omega
    subst hk
    exact ⟨v, hv, hw, hc⟩
  · rintro ⟨v, hv, hw, hc⟩
    exact ⟨i, by omega, v, hv, hw, hc⟩

/-- C3: the Static Diff classifies each index as the claim states: a
stream in `next` yields a removal of the prior occupant plus a
pure-addition of the stream (and no text update or element recursion
at that index); a prior stream replaced by a concrete node yields a
pure-addition with no removal; indices beyond the shorter length are
pure-additions (present only in `next`) or pure-removals (present only
in `prev`); and the four output sets are pairwise disjoint as
operation sets — text updates, element recursions and removals are
pairwise index-disjoint, text updates and element recursions never
share an index with an addition, and a removal and an addition sharing
an index (the replace case) are distinct operations by kind. -/
theorem static_diff_classification :
    ∀ (prevs latests : List Item),
      (∀ i v s, prevs[i]? = some v → latests[i]? = some (Item.stream s) →
        ((v, i) ∈ (diffVNodes prevs latests).removals ∧
         (Item.stream s, i) ∈ (diffVNodes prevs latests).additionals ∧
         (∀ w, (w, i) ∉ (diffVNodes prevs latests).texts) ∧
         (∀ w, (w, i) ∉ (diffVNodes prevs latests).elements))) ∧
      (∀ i s w, prevs[i]? = some (Item.stream s) → latests[i]? = some w →
        w.isStreamI = false →
        ((w, i) ∈ (diffVNodes prevs latests).additionals ∧
         (∀ v, (v, i) ∉ (diffVNodes prevs latests).removals))) ∧
      (∀ i w, prevs.length ≤ i → latests[i]? = some w →
        (w, i) ∈ (diffVNodes prevs latests).additionals) ∧
      (∀ i v, latests.length ≤ i → prevs[i]? = some v →
        (v, i) ∈ (diffVNodes prevs latests).removals) ∧
      (∀ w i u, (w, i) ∈ (diffVNodes prevs latests).texts →
        (u, i) ∉ (diffVNodes prevs latests).elements) ∧
      (∀ w i u, (w, i) ∈ (diffVNodes prevs latests).texts →
        (u, i) ∉ (diffVNodes prevs latests).removals) ∧
      (∀ w i u, (w, i) ∈ (diffVNodes prevs latests).texts →
        (u, i) ∉ (diffVNodes prevs latests).additionals) ∧
      (∀ w i u, (w, i) ∈ (diffVNodes prevs latests).elements →
        (u, i) ∉ (diffVNodes prevs latests).removals) ∧
      (∀ w i u, (w, i) ∈ (diffVNodes prevs latests).elements →
        (u, i) ∉ (diffVNodes prevs latests).additionals) := by
  intro prevs latests
  refine ⟨?_, ?_, ?_, ?_, ?_, ?_, ?_, ?_, ?_⟩
  · intro i v s hp hl
    refine ⟨?_, ?_, ?_, ?_⟩
    · exact (diffVNodes_removals_mem _ _ _ _).mpr
        ⟨lt_length_of_getElem? hp, hp, Or.inr ⟨Item.stream s, hl, Or.inl rfl⟩⟩
    · exact (diffVNodes_additionals_mem _ _ _ _).mpr
        (Or.inl ⟨lt_length_of_getElem? hp, v, hp, hl, Or.inl rfl⟩)
    · intro w hw
      obtain ⟨v2, hv2, hw2, hc⟩ := (diffVNodes_texts_mem _ _ _ _).mp hw
      rw [hl] at hw2
      injection hw2 with hw3
      rw [← hw3] at hc
      exact absurd hc.1 (by simp [Item.isStreamI])
    · intro w hw
      obtain ⟨v2, hv2, hw2, hc⟩ := (diffVNodes_elements_mem _ _ _ _).mp hw
      rw [hl] at hw2
      injection hw2 with hw3
      rw [← hw3] at hc
      exact absurd hc.1 (by simp [Item.isStreamI])
  · intro i s w hp hl hw
    constructor
    · refine (diffVNodes_additionals_mem _ _ _ _).mpr
        (Or.inl ⟨lt_length_of_getElem? hp, Item.stream s, hp, hl, ?_⟩)
      exact Or.inr (Or.inl ⟨hw, rfl⟩)
    · intro v hv
      obtain ⟨_, hp2, hc⟩ := (diffVNodes_removals_mem _ _ _ _).mp hv
      rw [hp] at hp2
      injection hp2 with hp3
      rcases hc with hn | ⟨w2, hw2, hal⟩
      · rw [hl] at hn; cases hn
      · rw [hl] at hw2
        injection hw2 with hw3
        rcases hal with h1 | ⟨_, h2, _⟩
        · rw [← hw3] at h1
          rw [h1] at hw
          cases hw
        · rw [← hp3] at h2
          simp [Item.isStreamI] at h2
  · intro i w hle hl
    exact (diffVNodes_additionals_mem _ _ _ _).mpr (Or.inr ⟨hle, hl⟩)
  · intro i v hle hp
    exact (diffVNodes_removals_mem _ _ _ _).mpr
      ⟨lt_length_of_getElem? hp, hp, Or.inl (List.getElem?_eq_none hle)⟩
  · intro w i u hw hu
    obtain ⟨v1, hv1, hw1, hc1⟩ := (diffVNodes_texts_mem _ _ _ _).mp hw
    obtain ⟨v2, hv2, hw2, hc2⟩ := (diffVNodes_elements_mem _ _ _ _).mp hu
    rw [hv1] at hv2
    injection hv2 with hv3
    rw [hw1] at hw2
    injection hw2 with hw3
    rw [← hv3, ← hw3] at hc2
    obtain ⟨_, _, hdv2, _⟩ := hc2
    rw [hc1.2.2] at hdv2
    cases hdv2
  · intro w i u hw hu
    obtain ⟨v1, hv1, hw1, hc1⟩ := (diffVNodes_texts_mem _ _ _ _).mp hw
    obtain ⟨_, hp2, hc⟩ := (diffVNodes_removals_mem _ _ _ _).mp hu
    rw [hv1] at hp2
    injection hp2 with hp3
    rcases hc with hn | ⟨w2, hw2, hal⟩
    · rw [hw1] at hn; cases hn
    · rw [hw1] at hw2
      injection hw2 with hw3
      rw [← hp3, ← hw3] at hal
      rcases hal with h1 | ⟨_, _, h3⟩
      · rw [hc1.1] at h1; cases h1
      · rw [hc1.2.2] at h3; cases h3
  · intro w i u hw hu
    obtain ⟨v1, hv1, hw1, hc1⟩ := (diffVNodes_texts_mem _ _ _ _).mp hw
    rcases (diffVNodes_additionals_mem _ _ _ _).mp hu with ⟨_, v2, hv2, hw2, hal⟩ | ⟨hle, _⟩
    · rw [hv1] at hv2
      injection hv2 with hv3
      rw [hw1] at hw2
      injection hw2 with hw3
      rw [← hv3, ← hw3] at hal
      rcases hal with h1 | ⟨_, h2⟩ | ⟨_, _, h3⟩
      · rw [hc1.1] at h1; cases h1
      · rw [hc1.2.1] at h2; cases h2
      · rw [hc1.2.2] at h3; cases h3
    · exact absurd (lt_length_of_getElem? hv1) (by omega)
  · intro w i u hw hu
    obtain ⟨v1, hv1, hw1, hc1⟩ := (diffVNodes_elements_mem _ _ _ _).mp hw
    obtain ⟨_, hp2, hc⟩ := (diffVNodes_removals_mem _ _ _ _).mp hu
    rw [hv1] at hp2
    injection hp2 with hp3
    rcases hc with hn | ⟨w2, hw2, hal⟩
    · rw [hw1] at hn; cases hn
    · rw [hw1] at hw2
      injection hw2 with hw3
      rw [← hp3, ← hw3] at hal
      rcases hal with h1 | ⟨_, _, h3⟩
      · rw [hc1.1] at h1; cases h1
      · rw [hc1.2.2.1] at h3; cases h3
  · intro w i u hw hu
    obtain ⟨v1, hv1, hw1, hc1⟩ := (diffVNodes_elements_mem _ _ _ _).mp hw
    rcases (diffVNodes_additionals_mem _ _ _ _).mp hu with ⟨_, v2, hv2, hw2, hal⟩ | ⟨hle, _⟩
    · rw [hv1] at hv2
      injection hv2 with hv3
      rw [hw1] at hw2
      injection hw2 with hw3
      rw [← hv3, ← hw3] at hal
      rcases hal with h1 | ⟨_, h2⟩ | ⟨_, _, h3⟩
      · rw [hc1.1] at h1; cases h1
      · rw [hc1.2.1] at h2; cases h2
      · rw [hc1.2.2.1] at h3; cases h3
    · exact absurd (lt_length_of_getElem? hv1) (by omega)

/-- Witness for `static_diff_classification`: a stream replacing a
text node is classified as removal plus pure-addition. -/
theorem static_diff_classification_witness :
    ([Item.vtext "a" none][0]? = some (Item.vtext "a" none) ∧
     [Item.stream 5][0]? = some (Item.stream 5)) ∧
    ((Item.vtext "a" none, 0)
        ∈ (diffVNodes [Item.vtext "a" none] [Item.stream 5]).removals ∧
     (Item.stream 5, 0)
        ∈ (diffVNodes [Item.vtext "a" none] [Item.stream 5]).additionals) :=
  ⟨⟨rfl, rfl⟩,
   ⟨((static_diff_classification [Item.vtext "a" none] [Item.stream 5]).1 0
       (Item.vtext "a" none) 5 rfl rfl).1,
    ((static_diff_classification [Item.vtext "a" none] [Item.stream 5]).1 0
       (Item.vtext "a" none) 5 rfl rfl).2.1⟩⟩

/-! ## Lemmas about trace ordering (cancellations and removals first) -/

theorem noAdd_unmountNodeAttrs (a : List (String × AVal)) (un : List String) (node : Nat) :
    ∀ op ∈ (unmountNodeAttrs a un node).2, op.isAddition = false := by
  induction a generalizing un with
  | nil => intro op hop; simp [unmountNodeAttrs] at hop
  | cons kv r ih =>
    intro op hop
    obtain ⟨k, v⟩ := kv
    by_cases hc : un.contains k
    · simp only [unmountNodeAttrs, hc, if_true, List.cons_append, List.singleton_append,
        List.mem_cons] at hop
      rcases hop with h | h | h
      · subst h; rfl
      · subst h; rfl
      · exact ih _ op h
    · simp only [unmountNodeAttrs, hc, if_false, List.cons_append, List.nil_append,
        List.mem_cons] at hop
      rcases hop with h | h
      · subst h; rfl
      · exact ih _ op h

theorem noAdd_unmountNodeStyle (a : List (String × AVal)) (un : List String) (node : Nat) :
    ∀ op ∈ (unmountNodeStyle a un node).2, op.isAddition = false := by
  induction a generalizing un with
  | nil => intro op hop; simp [unmountNodeStyle] at hop
  | cons kv r ih =>
    intro op hop
    obtain ⟨k, v⟩ := kv
    by_cases hc : un.contains k
    · simp only [unmountNodeStyle, hc, if_true, List.cons_append, List.singleton_append,
        List.mem_cons] at hop
      rcases hop with h | h | h
      · subst h; rfl
      · subst h; rfl
      · exact ih _ op h
    · simp only [unmountNodeStyle, hc, if_false, List.cons_append, List.nil_append,
        List.mem_cons] at hop
      rcases hop with h | h
      · subst h; rfl
      · exact ih _ op h

theorem noAdd_unmountNodeEvents (a : List (String × Nat)) (un : List String) :
    ∀ op ∈ (unmountNodeEvents a un).2, op.isAddition = false := by
  induction a generalizing un with
  | nil => intro op hop; simp [unmountNodeEvents] at hop
  | cons kv r ih =>
    intro op hop
    obtain ⟨k, v⟩ := kv
    by_cases hc : un.contains k
    · simp only [unmountNodeEvents, hc, if_true, List.singleton_append,
        List.mem_cons] at hop
      rcases hop with h | h
      · subst h; rfl
      · exact ih _ op h
    · simp only [unmountNodeEvents, hc, if_false, List.nil_append] at hop
      exact ih _ op hop

theorem noAdd_refOps (c : CV) (b : Bool) : ∀ op ∈ refOps c b, op.isAddition = false := by
  intro op hop
  unfold refOps at hop
  cases h : c.vnodeOf.refOf with
  | none => rw [h] at hop; simp at hop
  | some r =>
    rw [h] at hop
    simp only [List.mem_singleton] at hop
    subst hop; rfl

theorem noAdd_removeRoot (sp : Spaces CV) (S P : Nat) :
    ∀ op ∈ (removeRoot sp S P).2, op.isAddition = false := by
  intro op hop
  unfold removeRoot at hop
  cases h : getOcc sp S P with
  | none => rw [h] at hop; simp at hop
  | some child =>
    rw [h] at hop
    simp only [List.append_assoc, List.mem_append] at hop
    rcases hop with h1 | h2 | h3
    · by_cases he : child.vnodeOf.isElemI = true
      · rw [if_pos he] at h1
        rcases List.mem_append.mp h1 with ha | hbc
        · exact noAdd_unmountNodeAttrs _ _ _ op ha
        · rcases List.mem_append.mp hbc with hb | hc
          · exact noAdd_unmountNodeStyle _ _ _ op hb
          · exact noAdd_unmountNodeEvents _ _ op hc
      · rw [if_neg he] at h1
        simp at h1
    · simp only [List.mem_singleton] at h2
      subst h2; rfl
    · exact noAdd_refOps _ _ op h3

theorem noAdd_removeStream_ops {α : Type} (sp : Spaces α) (S P : Nat) :
    ∀ o ∈ (removeStream sp S P).2, ∀ f : α → Nat, True := by
  intro o _ f; trivial

theorem noAdd_regionRemove (isRoot : Bool) (sp : Spaces CV) (S P : Nat) :
    ∀ op ∈ (regionRemove isRoot sp S P).2, op.isAddition = false := by
  intro op hop
  unfold regionRemove at hop
  cases isRoot with
  | true => exact noAdd_removeRoot sp S P op (by simpa using hop)
  | false =>
    simp only [Bool.false_eq_true, if_false, List.mem_map] at hop
    obtain ⟨ao, hao, hmap⟩ := hop
    unfold removeStream at hao
    cases h : getOcc sp S P with
    | none => rw [h] at hao; simp at hao
    | some c =>
      rw [h] at hao
      simp only [List.mem_singleton] at hao
      subst hao
      subst hmap
      rfl

theorem noAdd_applyRemovals (isRoot : Bool) :
    ∀ (removals : List (Item × Nat)) (sp : Spaces CV),
      ∀ op ∈ (applyRemovals isRoot sp removals).2, op.isAddition = false := by
  intro removals
  induction removals with
  | nil => intro sp op hop; simp [applyRemovals] at hop
  | cons e rest ih =>
    intro sp op hop
    simp only [applyRemovals, List.mem_append] at hop
    rcases hop with h1 | h2
    · exact noAdd_regionRemove isRoot sp e.2 0 op h1
    · exact ih _ op h2

theorem noAdd_applyRemovePositions (isRoot : Bool) (idx : Nat) :
    ∀ (poss : List Nat) (sp : Spaces CV),
      ∀ op ∈ (applyRemovePositions isRoot idx sp poss).2, op.isAddition = false := by
  intro poss
  induction poss with
  | nil => intro sp op hop; simp [applyRemovePositions] at hop
  | cons p rest ih =>
    intro sp op hop
    simp only [applyRemovePositions, List.mem_append] at hop
    rcases hop with h1 | h2
    · exact noAdd_regionRemove isRoot sp idx p op h1
    · exact ih _ op h2

theorem noAdd_cancelCalls : ∀ n : Nat,
    (∀ fl sp cs, ∀ op ∈ (run n (Call.runCancels fl sp cs)).1, op.isAddition = false) ∧
    (∀ sid c, ∀ op ∈ (run n (Call.unmountCtl sid c)).1, op.isAddition = false) ∧
    (∀ sp cs, ∀ op ∈ (run n (Call.unmountCancels sp cs)).1, op.isAddition = false) := by
  intro n
  induction n with
  | zero =>
    refine ⟨?_, ?_, ?_⟩
    · intro fl sp cs op hop; simp [run] at hop
    · intro sid c op hop; simp [run] at hop
    · intro sp cs op hop; simp [run] at hop
  | succ n ih =>
    obtain ⟨ih1, ih2, ih3⟩ := ih
    refine ⟨?_, ?_, ?_⟩
    · intro fl sp cs op hop
      cases cs with
      | nil => simp [run] at hop
      | cons e rest =>
        obtain ⟨sid, idx, nested⟩ := e
        simp only [run] at hop
        split at hop
        · exact ih2 sid nested op hop
        · rcases List.mem_append.mp hop with hab | hc
          · rcases List.mem_append.mp hab with ha | hb
            · exact ih2 sid nested op ha
            · exact noAdd_applyRemovePositions fl idx _ _ op hb
          · exact ih1 fl _ rest op hc
        · exact ih2 sid nested op hop
    · intro sid c op hop
      simp only [run] at hop
      split at hop
      · rcases List.mem_cons.mp hop with h | h
        · subst h; rfl
        · exact ih3 c.spacesOf c.cancelsOf op h
      · rcases List.mem_cons.mp hop with h | h
        · subst h; rfl
        · exact ih3 c.spacesOf c.cancelsOf op h
      · rcases List.mem_cons.mp hop with h | h
        · subst h; rfl
        · exact ih3 c.spacesOf c.cancelsOf op h
    · intro sp cs op hop
      cases cs with
      | nil => simp [run] at hop
      | cons e rest =>
        obtain ⟨sid, idx, nested⟩ := e
        simp only [run] at hop
        split at hop
        · exact ih2 sid nested op hop
        · split at hop
          · rcases List.mem_append.mp hop with ha | hb
            · exact ih2 sid nested op ha
            · exact ih3 _ rest op hb
          · rcases List.mem_append.mp hop with ha | hb
            · exact ih2 sid nested op ha
            · exact ih3 _ rest op hb
          · rcases List.mem_append.mp hop with ha | hb
            · exact ih2 sid nested op ha
            · exact ih3 _ rest op hb
        · exact ih2 sid nested op hop

theorem remountB_trace_starts_with_removals :
    ∀ (m : Nat) (fl : Bool) (sp1 : Spaces CV) (k : Nat) (p l : List Item),
      ∃ tRest, (run (m + 1) (Call.remountB fl sp1 k p l)).1
        = (applyRemovals fl sp1 (diffVNodes p l).removals).2 ++ tRest := by
  intro m fl sp1 k p l
  simp only [run]
  split
  · exact ⟨_, rfl⟩
  · split
    · exact ⟨_, by rw [List.append_assoc]⟩
    · exact ⟨_, by rw [List.append_assoc, List.append_assoc]⟩
    · exact ⟨_, by rw [List.append_assoc]⟩

/-- C4: in every reconcile run over a region, `remountVNodes` first
invokes every tracked dynamic-region cancellation; the rest of the run
is computed from the spaces map alone with a cleared registry (the
`remountB` phase takes no registry); within it the removal operations
produced by this run's Static Diff come first; and no physical
addition appears among the cancellation or removal operations — so
every addition of the run is issued after all of this run's diff
removals. -/
theorem remount_cancels_then_removals_before_additions :
    ∀ (n : Nat) (fl : Bool) (sp : Spaces CV) (cs : List (Nat × Nat × CV)) (k : Nat)
      (prevs latests : List Item) (sp1 : Spaces CV),
      (run n (Call.runCancels fl sp cs)).2 = Except.ok (Out.outSpaces sp1) →
      ((run (n + 1) (Call.remountC fl (CV.ctl sp cs) k prevs latests)).1
          = (run n (Call.runCancels fl sp cs)).1
            ++ (run n (Call.remountB fl sp1 k prevs latests)).1) ∧
      (∃ tRest, (run n (Call.remountB fl sp1 k prevs latests)).1
          = (applyRemovals fl sp1 (diffVNodes prevs latests).removals).2 ++ tRest) ∧
      (∀ op ∈ (run n (Call.runCancels fl sp cs)).1, op.isAddition = false) ∧
      (∀ op ∈ (applyRemovals fl sp1 (diffVNodes prevs latests).removals).2,
        op.isAddition = false) := by
  intro n fl sp cs k prevs latests sp1 h
  refine ⟨?_, ?_, fun op hop => (noAdd_cancelCalls n).1 fl sp cs op hop,
    fun op hop => noAdd_applyRemovals fl _ sp1 op hop⟩
  · simp only [run, CV.spacesOf, CV.cancelsOf]
    rw [h]
  · cases n with
    | zero => simp [run] at h
    | succ m => exact remountB_trace_starts_with_removals m fl sp1 k prevs latests

/-- Witness for `remount_cancels_then_removals_before_additions`, at
an empty registry over a one-item region state. -/
theorem remount_cancels_then_removals_before_additions_witness :
    ((run 10 (Call.runCancels false [(0, [(0, some (CV.node 0 (Item.vtext "a" none) none [] [] []))])] [])).2
        = Except.ok (Out.outSpaces [(0, [(0, some (CV.node 0 (Item.vtext "a" none) none [] [] []))])])) ∧
    ((run 11 (Call.remountC false
        (CV.ctl [(0, [(0, some (CV.node 0 (Item.vtext "a" none) none [] [] []))])] []) 1
        [Item.vtext "a" none] [])).1
      = (run 10 (Call.runCancels false
          [(0, [(0, some (CV.node 0 (Item.vtext "a" none) none [] [] []))])] [])).1
        ++ (run 10 (Call.remountB false
          [(0, [(0, some (CV.node 0 (Item.vtext "a" none) none [] [] []))])] 1
          [Item.vtext "a" none] [])).1) :=
  ⟨rfl,
   (remount_cancels_then_removals_before_additions 10 false
     [(0, [(0, some (CV.node 0 (Item.vtext "a" none) none [] [] []))])] [] 1
     [Item.vtext "a" none] []
     [(0, [(0, some (CV.node 0 (Item.vtext "a" none) none [] [] []))])] rfl).1⟩

/-- C6 counterexample: after a dynamic region emits `["1","2","3"]`
(mounting physical nodes 0, 1, 2 in order for the three items), the
emission of `["1","3"]` issues a physical removal at index 2 — the
node that rendered `"3"` — and a text mutation of node 1 (the node
that rendered `"2"`); node 1 is still present afterwards, so the node
that rendered item `"2"` is not removed, contrary to the claim. -/
theorem dynamic_region_second_emission_counterexample :
    (regionNext 30 freshRegion c6raw1).1
      = [Op.physInsert 0 0, Op.physInsert 1 1, Op.physInsert 2 2] ∧
    c6trace2 = [Op.physRemove 2, Op.setTextOp 1 "3"] ∧
    replayTrace [(0, "1"), (1, "2"), (2, "3")] c6trace2 = [(0, "1"), (1, "3")] ∧
    ((1, "3") ∈ replayTrace [(0, "1"), (1, "2"), (2, "3")] c6trace2) ∧
    ¬ ((2, "3") ∈ replayTrace [(0, "1"), (1, "2"), (2, "3")] c6trace2) := by
  refine ⟨rfl, rfl, rfl, ?_, ?_⟩
  · show (1, "3") ∈ [(0, "1"), (1, "3")]
    decide
  · show ¬ ((2, "3") ∈ [(0, "1"), (1, "3")])
    decide

/-- C6 amended: reconciling `["1","2","3"]` into `["1","3"]` issues
exactly one physical removal, at the last slot (the node that rendered
`"3"`), and mutates the text of the node that rendered `"2"` in place
to `"3"`; the surface then shows `"1","3"`, one slot shorter, with
slot 0 untouched. -/
theorem dynamic_region_second_emission_amended :
    c6trace2 = [Op.physRemove 2, Op.setTextOp 1 "3"] ∧
    (replayTrace [(0, "1"), (1, "2"), (2, "3")] c6trace2).map Prod.snd = ["1", "3"] ∧
    (replayTrace [(0, "1"), (1, "2"), (2, "3")] c6trace2)[0]? = some (0, "1") ∧
    (replayTrace [(0, "1"), (1, "2"), (2, "3")] c6trace2).length = 2 :=
  ⟨rfl, rfl, rfl, rfl⟩

/-- C7 counterexample: a malformed child item (neither a node, stream,
string/number nor null/undefined) does not raise; `getSafeVNodes`
coerces it to a text node via string conversion and mounting succeeds,
physically inserting a rendered node for it. -/
theorem malformed_child_coerced_counterexample :
    getSafeVNodes [RawItem.junk "true"] = [Item.vtext "true" none] ∧
    (run 10 (Call.mountL false (CV.ctl [] []) 0
        (enumPairs (getSafeVNodes [RawItem.junk "true"])))).1 = [Op.physInsert 0 0] ∧
    (run 10 (Call.mountL false (CV.ctl [] []) 0
        (enumPairs (getSafeVNodes [RawItem.junk "true"])))).2
      = Except.ok (Out.outCtl
          (CV.ctl [(0, [(0, some (CV.node 0 (Item.vtext "true" none) none [] [] []))])] []) 1) :=
  ⟨rfl, rfl, rfl⟩

/-- C7 amended: for every malformed item, normalisation coerces it to
a text node carrying its string image and the mount silently renders
it with no error; the internal `createChildNode` guard can only fire
for values outside the normalised set, which mounting never produces. -/
theorem malformed_child_coerced_amended :
    ∀ (j : String),
      getSafeVNodes [RawItem.junk j] = [Item.vtext j none] ∧
      (run 10 (Call.mountL false (CV.ctl [] []) 0
          (enumPairs (getSafeVNodes [RawItem.junk j])))).1 = [Op.physInsert 0 0] ∧
      (run 10 (Call.mountL false (CV.ctl [] []) 0
          (enumPairs (getSafeVNodes [RawItem.junk j])))).2
        = Except.ok (Out.outCtl
            (CV.ctl [(0, [(0, some (CV.node 0 (Item.vtext j none) none [] [] []))])] []) 1) := by
  intro j
  exact ⟨rfl, rfl, rfl⟩

/-- C8: at the failing input — an element whose constant style
`{color: "red"}` is re-rendered with an empty style map — the update
pass removes the *attribute* `"color"` (source line 440 hands the
style diff to `unmountNodeAttrs`) and never clears the style property,
contradicting both the claim and the evident intent of the adjacent
`unmountNodeStyle`. -/
theorem style_const_removal_uses_removeAttribute :
    c8trace = [Op.removeAttrOp 0 "color"] ∧
    Op.removeAttrOp 0 "color" ∈ c8trace ∧
    ¬ (Op.removeStylePropOp 0 "color" ∈ c8trace) := by
  have h : c8trace = [Op.removeAttrOp 0 "color"] := rfl
  refine ⟨h, ?_, ?_⟩
  · rw [h]; decide
  · rw [h]; decide

/-- C2 counterexample: two identical one-element lists whose element
carries a stream-valued attribute; reconciling them physically removes
the attribute (before re-subscribing), so a reconcile over pairwise
identical lists can issue physical operations. -/
theorem remount_identical_with_stream_attr_counterexample :
    physOps (run 30 (Call.remountC false c2ctl 1 [c2item] [c2item])).1
      = [Op.removeAttrOp 0 "id"] ∧
    physOps (run 30 (Call.remountC false c2ctl 1 [c2item] [c2item])).1 ≠ [] := by
  have h : physOps (run 30 (Call.remountC false c2ctl 1 [c2item] [c2item])).1
      = [Op.removeAttrOp 0 "id"] := rfl
  refine ⟨h, ?_⟩
  rw [h]
  decide

/-! ## Lemmas for the identical, stream-free reconcile -/

theorem physOps_append (a b : List Op) : physOps (a ++ b) = physOps a ++ physOps b := by
  simp [physOps, List.filter_append]

theorem SF_not_stream {v : Item} (h : SF v) : v.isStreamI = false := by
  cases h <;> rfl

theorem diffVNode_self (v : Item) : diffVNode v v = DiffKind.same := by
  cases v <;> simp [diffVNode, Item.isElemI, Item.isTextI, Item.nameOf, Item.textOf]

theorem diffGo_self : ∀ (items : List Item) (i0 : Nat),
    (∀ v ∈ items, v.isStreamI = false) →
    diffGo items items i0 = ⟨[], [], elemEntries items i0, []⟩ := by
  intro items
  induction items with
  | nil => intro i0 _; rfl
  | cons v r ih =>
    intro i0 hs
    have hv : v.isStreamI = false := hs v (List.mem_cons_self _ _)
    have hr := ih (i0 + 1) (fun w hw => hs w (List.mem_cons_of_mem _ hw))
    rw [diffGo_cons_cons, hr]
    have h1 : ¬ alignedAddition v v := by
      simp [alignedAddition, hv, diffVNode_self]
    have h2 : ¬ alignedRemoval v v := by
      simp [alignedRemoval, hv, diffVNode_self]
    have h4 : ¬ alignedText v v := by
      simp [alignedText, diffVNode_self]
    by_cases he : v.isElemI = true
    · have h3 : alignedElem v v := ⟨hv, hv, diffVNode_self v, he⟩
      simp [h1, h2, h3, h4, elemEntries, he]
    · have h3 : ¬ alignedElem v v := by simp [alignedElem, he]
      simp [h1, h2, h3, h4, elemEntries, he]

theorem diffVNodes_self (items : List Item)
    (hs : ∀ v ∈ items, v.isStreamI = false) :
    diffVNodes items items = ⟨[], [], elemEntries items 0, []⟩ := by
  unfold diffVNodes
  rw [diffGo_self items 0 hs]
  simp

theorem assocGet_of_mem_nodup {V : Type} :
    ∀ (m : List (String × V)), ((m.map Prod.fst).Nodup) →
      ∀ {k : String} {v : V}, (k, v) ∈ m → assocGet m k = some v := by
  intro m
  induction m with
  | nil => intro _ k v h; simp at h
  | cons e r ih =>
    intro hnd k v h
    obtain ⟨k0, v0⟩ := e
    simp only [List.map_cons, List.nodup_cons] at hnd
    rcases List.mem_cons.mp h with h1 | h2
    · injection h1 with hk hv
      subst hk; subst hv
      simp [assocGet]
    · by_cases he : k0 = k
      · subst he
        exact absurd (List.mem_map_of_mem Prod.fst h2) hnd.1
      · simp only [assocGet, if_neg he]
        exact ih hnd.2 h2

theorem diffObject_self {V : Type} [DecidableEq V] (m : List (String × V))
    (hnd : (m.map Prod.fst).Nodup) : diffObject m m = ([], []) := by
  unfold diffObject
  have h : ∀ kv ∈ m,
      (if assocGet m kv.1 = some kv.2 then none else some kv) = (none : Option (String × V)) := by
    intro kv hkv
    rw [if_pos]
    exact assocGet_of_mem_nodup m hnd (by simpa using hkv)
  rw [List.filterMap_eq_nil_iff.mpr h]

theorem streamPart_eq_nil (m : List (String × AVal))
    (h : ∀ kv ∈ m, ∃ s, kv.2 = AVal.constV s) : streamPart m = [] := by
  unfold streamPart
  rw [List.filter_eq_nil_iff]
  intro kv hkv
  obtain ⟨s, hs⟩ := h kv hkv
  simp [hs]

theorem constPart_eq_self (m : List (String × AVal))
    (h : ∀ kv ∈ m, ∃ s, kv.2 = AVal.constV s) : constPart m = m := by
  unfold constPart
  rw [List.filter_eq_self]
  intro kv hkv
  obtain ⟨s, hs⟩ := h kv hkv
  simp [hs]

theorem elemEntries_mem :
    ∀ (items : List Item) (i0 : Nat) (v : Item) (i : Nat),
      ((v, i) ∈ elemEntries items i0) ↔
        ∃ k, i = i0 + k ∧ items[k]? = some v ∧ v.isElemI = true := by
  intro items
  induction items with
  | nil =>
    intro i0 v i
    constructor
    · intro h; simp [elemEntries] at h
    · rintro ⟨k, _, hk, _⟩; simp at hk
  | cons v0 r ih =>
    intro i0 v i
    simp only [elemEntries, List.mem_append]
    constructor
    · intro h
      rcases h with h1 | h2
      · by_cases he : v0.isElemI = true
        · rw [if_pos he] at h1
          simp only [List.mem_singleton] at h1
          injection h1 with hv hi
          exact ⟨0, by omega, by simp [hv.symm], by rw [hv]; exact he⟩
        · rw [if_neg he] at h1
          simp at h1
      · obtain ⟨k, hik, hk, he⟩ := (ih (i0 + 1) v i).mp h2
        exact ⟨k + 1, by omega, by simpa using hk, he⟩
    · rintro ⟨k, hik, hk, he⟩
      cases k with
      | zero =>
        left
        have hv : v0 = v := by simpa using hk
        rw [if_pos (hv ▸ he)]
        simp [hv, hik]
      | succ k2 =>
        right
        exact (ih (i0 + 1) v i).mpr ⟨k2, by omega, by simpa using hk, he⟩

theorem elemEntries_snd_nodup :
    ∀ (items : List Item) (i0 : Nat), ((elemEntries items i0).map Prod.snd).Nodup := by
  intro items
  induction items with
  | nil => intro i0; simp [elemEntries]
  | cons v0 r ih =>
    intro i0
    by_cases he : v0.isElemI = true
    · simp only [elemEntries, if_pos he, List.singleton_append, List.map_cons,
        List.nodup_cons]
      constructor
      · intro hmem
        obtain ⟨⟨w, j⟩, hwj, hj⟩ := List.mem_map.mp hmem
        obtain ⟨k, hik, _, _⟩ := (elemEntries_mem r (i0 + 1) w j).mp hwj
        simp only at hj
        omega
      · exact ih (i0 + 1)
    · simp only [elemEntries, if_neg he, List.nil_append]
      exact ih (i0 + 1)

theorem mem_of_getElem2 {γ : Type} {l : List γ} {i : Nat} {v : γ}
    (h : l[i]? = some v) : v ∈ l := by
  obtain ⟨hlt, he⟩ := List.getElem?_eq_some_iff.mp h
  exact he ▸ l.getElem_mem hlt

theorem runCancels_nil_succ (m : Nat) (fl : Bool) (sp : Spaces CV) :
    run (m + 1) (Call.runCancels fl sp []) = ([], Except.ok (Out.outSpaces sp)) := rfl

theorem mountL_nil_trace (n : Nat) (fl : Bool) (c : CV) (k : Nat) :
    (run n (Call.mountL fl c k [])).1 = [] := by
  cases n <;> rfl

theorem entriesOK_of_cons (sp : Spaces CV) (items : List Item)
    (hSF : ∀ v ∈ items, SF v) (hc : Cons (CV.ctl sp []) items) :
    EntriesOK sp (elemEntries items 0) := by
  cases hc with
  | intro sp items hA hB =>
    constructor
    · exact elemEntries_snd_nodup items 0
    · intro e he
      obtain ⟨v, i⟩ := e
      obtain ⟨k, hik, hk, hel⟩ := (elemEntries_mem items 0 v i).mp he
      have hik2 : i = k := by omega
      subst hik2
      have hget : items.get? i = some v := by
        rw [List.get?_eq_getElem?]; exact hk
      obtain ⟨rec2, hrec, hvn, hcs⟩ := hA i v hget
      obtain ⟨c2, hc2⟩ := Option.isSome_iff_exists.mp (hcs hel)
      refine ⟨hSF v (mem_of_getElem2 hk), hel, rec2, hrec, hvn, c2, hc2, ?_⟩
      apply hB i v c2 hget hel
      rw [hrec]
      simp [hc2]

theorem entriesOK_tail_update (sp : Spaces CV) (ps : Positions CV) (i : Nat)
    (x : Option CV) (v : Item) (rest : List (Item × Nat))
    (hok : EntriesOK sp ((v, i) :: rest)) (hm : mapGet sp i = some ps) :
    EntriesOK (mapSet sp i (mapSet ps 0 x)) rest := by
  obtain ⟨hnd, hf⟩ := hok
  simp only [List.map_cons, List.nodup_cons] at hnd
  refine ⟨hnd.2, ?_⟩
  intro e he
  obtain ⟨hsf, hel, rec2, hrec, hvn, c2, hc2, hcons⟩ := hf e (List.mem_cons_of_mem _ he)
  have hne : e.2 ≠ i := by
    intro hcontra
    exact hnd.1 (hcontra ▸ List.mem_map_of_mem Prod.snd he)
  refine ⟨hsf, hel, rec2, ?_, hvn, c2, hc2, hcons⟩
  unfold getOcc at hrec ⊢
  rw [mapGet_mapSet_ne _ _ _ _ hne]
  exact hrec

theorem remountB_step (m : Nat) (fl : Bool) (sp : Spaces CV) (k : Nat) (p l : List Item)
    (hd : diffVNodes p l = ⟨[], [], elemEntries l 0, []⟩) :
    run (m + 1) (Call.remountB fl sp k p l)
      = (match (run m (Call.procElems fl (CV.ctl sp []) k (elemEntries l 0))).2 with
         | Except.error e =>
           ((run m (Call.procElems fl (CV.ctl sp []) k (elemEntries l 0))).1,
            Except.error e)
         | Except.ok (Out.outCtl ctl4 k4) =>
           ((run m (Call.procElems fl (CV.ctl sp []) k (elemEntries l 0))).1
              ++ (run m (Call.mountL fl ctl4 k4 [])).1,
            (run m (Call.mountL fl ctl4 k4 [])).2)
         | Except.ok _ =>
           ((run m (Call.procElems fl (CV.ctl sp []) k (elemEntries l 0))).1,
            Except.error "bad out")) := by
  simp only [run]
  rw [hd]
  rfl

theorem procElems_step (m : Nat) (fl : Bool) (sp : Spaces CV)
    (cs : List (Nat × Nat × CV)) (k i : Nat) (rest : List (Item × Nat))
    (name : String) (attrs style : List (String × AVal))
    (events : List (String × Nat)) (ih0 : Option String) (children : List Item)
    (r0 : Option Nat) (rec2 : CV) (ps : Positions CV) (c2 : CV)
    (hm : mapGet sp i = some ps)
    (hp0 : mapGet ps 0 = some (some rec2))
    (hvn : rec2.vnodeOf = Item.velem name attrs style events ih0 children r0)
    (hc2 : rec2.controlOf = some c2)
    (hattrs : ∀ kv ∈ attrs, ∃ s, kv.2 = AVal.constV s)
    (hstyle : ∀ kv ∈ style, ∃ s, kv.2 = AVal.constV s)
    (hndA : (attrs.map Prod.fst).Nodup) (hndS : (style.map Prod.fst).Nodup)
    (hndE : (events.map Prod.fst).Nodup) :
    run (m + 1) (Call.procElems fl (CV.ctl sp cs) k
        ((Item.velem name attrs style events ih0 children r0, i) :: rest))
      = (match (run m (Call.remountC true c2 k children children)).2 with
         | Except.error e =>
           ((run m (Call.remountC true c2 k children children)).1, Except.error e)
         | Except.ok (Out.outCtl cctl2 k2) =>
           ((run m (Call.remountC true c2 k children children)).1
              ++ (run m (Call.procElems fl
                   (CV.ctl (mapSet sp i (mapSet ps 0 (some (CV.node rec2.nodeIdOf
                       (Item.velem name attrs style events ih0 children r0)
                       (some cctl2) rec2.unAOf rec2.unSOf rec2.unEOf)))) cs)
                   k2 rest)).1,
            (run m (Call.procElems fl
                   (CV.ctl (mapSet sp i (mapSet ps 0 (some (CV.node rec2.nodeIdOf
                       (Item.velem name attrs style events ih0 children r0)
                       (some cctl2) rec2.unAOf rec2.unSOf rec2.unEOf)))) cs)
                   k2 rest)).2)
         | Except.ok _ =>
           ((run m (Call.remountC true c2 k children children)).1,
            Except.error "bad out")) := by
  have hrec : getOcc sp i 0 = some rec2 := by
    unfold getOcc
    simp only [hm, hp0]
  simp only [run, CV.spacesOf, CV.cancelsOf]
  simp only [hrec]
  simp only [hvn, Item.attrsOf, Item.styleOf, Item.eventsOf, Item.innerHTMLOf,
    Item.childrenOf]
  rw [streamPart_eq_nil attrs hattrs, streamPart_eq_nil style hstyle,
    constPart_eq_self attrs hattrs, constPart_eq_self style hstyle,
    diffObject_self attrs hndA, diffObject_self style hndS,
    diffObject_self events hndE]
  simp only [hc2, hm]
  simp only [ne_eq, not_true_eq_false, if_false]
  rfl

theorem quietAll : ∀ n : Nat,
    (∀ (fl : Bool) (sp : Spaces CV) (k : Nat) (items : List Item),
      (∀ v ∈ items, SF v) → Cons (CV.ctl sp []) items →
      physOps (run n (Call.remountC fl (CV.ctl sp []) k items items)).1 = []) ∧
    (∀ (fl : Bool) (sp : Spaces CV) (k : Nat) (items : List Item),
      (∀ v ∈ items, SF v) → Cons (CV.ctl sp []) items →
      physOps (run n (Call.remountB fl sp k items items)).1 = []) ∧
    (∀ (fl : Bool) (sp : Spaces CV) (cs : List (Nat × Nat × CV)) (k : Nat)
       (entries : List (Item × Nat)),
      EntriesOK sp entries →
      physOps (run n (Call.procElems fl (CV.ctl sp cs) k entries)).1 = []) := by
  intro n
  induction n with
  | zero =>
    refine ⟨?_, ?_, ?_⟩
    · intro fl sp k items _ _; rfl
    · intro fl sp k items _ _; rfl
    · intro fl sp cs k entries _; rfl
  | succ n ih =>
    obtain ⟨ihC, ihB, ihE⟩ := ih
    refine ⟨?_, ?_, ?_⟩
    · intro fl sp k items hSF hc
      simp only [run, CV.spacesOf, CV.cancelsOf]
      cases n with
      | zero => rfl
      | succ m =>
        rw [runCancels_nil_succ]
        show physOps ([] ++ (run (m + 1) (Call.remountB fl sp k items items)).1) = []
        rw [List.nil_append]
        exact ihB fl sp k items hSF hc
    · intro fl sp k items hSF hc
      have hstream : ∀ v ∈ items, v.isStreamI = false :=
        fun v hv => SF_not_stream (hSF v hv)
      have hpe := ihE fl sp [] k (elemEntries items 0) (entriesOK_of_cons sp items hSF hc)
      rw [remountB_step n fl sp k items items (diffVNodes_self items hstream)]
      split
      · exact hpe
      · rw [mountL_nil_trace, physOps_append, hpe]
        rfl
      · exact hpe
    · intro fl sp cs k entries hok
      cases entries with
      | nil => rfl
      | cons e rest =>
        obtain ⟨v, i⟩ := e
        have hfacts := hok.2 (v, i) (List.mem_cons_self _ _)
        obtain ⟨hsf, hel, rec2, hrec, hvn, c2, hc2, hcons⟩ := hfacts
        simp only at hsf hel hrec hvn hcons
        cases v with
        | vtext t r => simp [Item.isElemI] at hel
        | stream sid => simp [Item.isElemI] at hel
        | velem name attrs style events ih0 children r0 =>
          cases hsf with
          | elem _ _ _ _ _ _ _ ha hs hna hns hne hch =>
            cases hmm : mapGet sp i with
            | none =>
              unfold getOcc at hrec
              simp only [hmm] at hrec
              cases hrec
            | some ps =>
              have hp0 : mapGet ps 0 = some (some rec2) := by
                unfold getOcc at hrec
                simp only [hmm] at hrec
                cases hpp : mapGet ps 0 with
                | none => simp only [hpp] at hrec; cases hrec
                | some o =>
                  cases o with
                  | none => simp only [hpp] at hrec; cases hrec
                  | some c =>
                    simp only [hpp] at hrec
                    cases hrec
                    rfl
              rw [procElems_step n fl sp cs k i rest name attrs style events ih0
                children r0 rec2 ps c2 hmm hp0 hvn hc2 ha hs hna hns hne]
              have hSFch : ∀ w ∈ children, SF w := hch
              have hrr : physOps (run n (Call.remountC true c2 k children children)).1
                  = [] := by
                have hcons' : Cons c2 children := hcons
                rcases hcons' with ⟨spc, itemsc, hA, hB⟩
                exact ihC true spc k children hSFch (Cons.intro spc children hA hB)
              split
              · exact hrr
              · rw [physOps_append, hrr]
                rw [List.nil_append]
                exact ihE fl _ cs _ rest
                  (entriesOK_tail_update sp ps i _
                    (Item.velem name attrs style events ih0 children r0) rest hok hmm)
              · exact hrr

/-- C2: for all node lists A and B of the same length whose entries are
pairwise identical at every position, reconciling (A, B) issues zero
physical display-surface operations — amended with the proviso that the
items are stream-free (no stream children and no stream-valued attribute
or style entries), since `remount_identical_with_stream_attr_counterexample`
shows the unrestricted statement is false.  Under that proviso, and for a
consistent mounted state with an empty cancellation registry, the
reconcile trace of `remountVNodes` contains no physical operation at any
fuel. -/
theorem remount_identical_streamfree_no_physical_ops
    (n : Nat) (fl : Bool) (sp : Spaces CV) (k : Nat) (items : List Item)
    (hSF : ∀ v ∈ items, SF v) (hC : Cons (CV.ctl sp []) items) :
    physOps (run n (Call.remountC fl (CV.ctl sp []) k items items)).1 = [] :=
  (quietAll n).1 fl sp k items hSF hC

/-- Witness: a concrete singleton stream-free state satisfies both
hypotheses, and the reconcile trace has no physical operation. -/
theorem remount_identical_streamfree_no_physical_ops_witness :
    (∀ v ∈ [c2wItem], SF v) ∧ Cons c2wCtl [c2wItem] ∧
    physOps (run 9 (Call.remountC true c2wCtl 0 [c2wItem] [c2wItem])).1 = [] := by
  have hSF : ∀ v ∈ [c2wItem], SF v := by
    intro v hv
    rw [List.mem_singleton] at hv
    subst hv
    exact SF.text "a" none
  have hA : ∀ i v, ([c2wItem] : List Item).get? i = some v →
      ∃ rec2 : CV,
        getOcc [(0, [(0, some (CV.node 0 c2wItem none [] [] []))])] i 0
          = some rec2 ∧
        rec2.vnodeOf = v ∧ (v.isElemI = true → rec2.controlOf.isSome = true) := by
    intro i v hv
    cases i with
    | zero =>
      simp only [List.get?] at hv
      cases hv
      exact ⟨CV.node 0 c2wItem none [] [] [], rfl, rfl,
        by intro h; simp [c2wItem, Item.isElemI] at h⟩
    | succ j => simp [List.get?] at hv
  have hB : ∀ i v c2, ([c2wItem] : List Item).get? i = some v →
      v.isElemI = true →
      (getOcc [(0, [(0, some (CV.node 0 c2wItem none [] [] []))])] i 0).bind
        CV.controlOf = some c2 →
      Cons c2 v.childrenOf := by
    intro i v c2 hv hel _
    cases i with
    | zero =>
      simp only [List.get?] at hv
      cases hv
      simp [c2wItem, Item.isElemI] at hel
    | succ j => simp [List.get?] at hv
  have hC : Cons c2wCtl [c2wItem] := Cons.intro _ [c2wItem] hA hB
  exact ⟨hSF, hC,
    remount_identical_streamfree_no_physical_ops 9 true _ 0 [c2wItem] hSF hC⟩
